import Mathlib

/-!
Verification of the schedule-bot day-plan engine.

The Python sources `ai_engine.py` and `database.py` are shallowly embedded
here.  Times of day are represented by their value in minutes since
midnight, as produced by the source's `hhmm_to_minutes` ("HH:MM" strings and
minute integers are in bijection through `hhmm_to_minutes` and
`minutes_to_hhmm`, so the string layer is dropped and every `HH:MM` field
becomes an `Int`; Python's `None` becomes `Option.none`).  Python's
unbounded `int` is embedded as `Int`.  Mutation of the free-window list is
embedded by explicit state passing: each placer returns the possibly
updated window list next to its result.  The SQLAlchemy session of
`database.py` is embedded as an explicit record of table contents
(`DBState`), and each store operation is a pure function from state to
result and updated state.
-/

namespace ScheduleBot

/-- A half-open interval `[fst, snd)` of minutes of the day,
corresponding to the `(start, end)` tuples of `ai_engine.py`. -/
abbrev Iv := Int × Int

/-- Python tuple comparison on pairs (lexicographic), the order used by
`sorted(ranges)` and `busy_ranges.sort()`. -/
def tupLe (a b : Iv) : Prop := a.1 < b.1 ∨ (a.1 = b.1 ∧ a.2 ≤ b.2)

instance : DecidableRel tupLe := fun _ _ => inferInstanceAs (Decidable (_ ∨ _))

instance : IsTotal Iv tupLe :=
  ⟨by intro a b; unfold tupLe; omega⟩

instance : IsTrans Iv tupLe :=
  ⟨by intro a b c; unfold tupLe; omega⟩

/-- Predicate: the interval `[inner.1, inner.2)` lies inside `[outer.1, outer.2)`. -/
def IvWithin (inner outer : Iv) : Prop := outer.1 ≤ inner.1 ∧ inner.2 ≤ outer.2

instance : ∀ a b : Iv, Decidable (IvWithin a b) := fun _ _ =>
  inferInstanceAs (Decidable (_ ∧ _))

/-- The half-open intervals `[a.1, a.2)` and `[b.1, b.2)` share no point. -/
def IvDisjoint (a b : Iv) : Prop := min a.2 b.2 ≤ max a.1 b.1

instance : ∀ a b : Iv, Decidable (IvDisjoint a b) := fun _ _ =>
  inferInstanceAs (Decidable (_ ≤ _))

/-- The merging loop of `merge_ranges` (`ai_engine.py`, lines 38-44):
`cur` is the interval currently sitting at `merged[-1]`; a next interval
starting at or before `cur`'s end is folded into it, extending the end to
the maximum, otherwise `cur` is emitted and the next interval becomes
current. -/
def mergeLoop : Iv → List Iv → List Iv
  | cur, [] => [cur]
  | cur, (s, e) :: rest =>
    if s ≤ cur.2 then mergeLoop (cur.1, max cur.2 e) rest
    else cur :: mergeLoop (s, e) rest

/-- Function `merge_ranges` (`ai_engine.py`, lines 34-45): sort, then fold
overlapping or touching neighbours together. -/
def merge_ranges (ranges : List Iv) : List Iv :=
  match List.insertionSort tupLe ranges with
  | [] => []
  | r :: rest => mergeLoop r rest

/-- One step of the busy-subtraction loop of `free_windows`
(`ai_engine.py`, lines 56-66): subtract the busy interval `b` from a single
window, keeping the window whole when `b` lies entirely before or after it
and otherwise keeping the left and right remainders. -/
def subtractBusy (b w : Iv) : List Iv :=
  if b.2 ≤ w.1 ∨ b.1 ≥ w.2 then [w]
  else
    (if w.1 < b.1 then [(w.1, b.1)] else []) ++
      (if b.2 < w.2 then [(b.2, w.2)] else [])

/-- Function `free_windows` (`ai_engine.py`, lines 48-68) at the minutes level:
merge the busy intervals, subtract each from the availability window
`(a0, a1)`, and drop windows shorter than the minimum useful length.
The source's `min_window` parameter is only ever used at its default 10,
which is inlined here. -/
def free_windows (a0 a1 : Int) (busy : List Iv) : List Iv :=
  let busy_m := merge_ranges busy
  let windows := busy_m.foldl (fun ws b => (ws.map (subtractBusy b)).flatten) [(a0, a1)]
  windows.filter (fun w => decide (w.2 - w.1 ≥ 10))

/-- The replacement windows `_cut_window` (`ai_engine.py`, lines 71-83)
computes for the window it cuts: the left remainder (if non-empty) then
the right remainder (if non-empty), each kept only when at least
`min_window = 10` long.  `_cut_window` pops the cut window and inserts
exactly these parts, in this order, at the vacated index. -/
def cut_parts (w : Iv) (cutS cutE : Int) : List Iv :=
  ((if w.1 < cutS then [(w.1, cutS)] else []) ++
      (if cutE < w.2 then [(cutE, w.2)] else [])).filter
    (fun p => decide (p.2 - p.1 ≥ 10))

/-- Function `place_fixed` (`ai_engine.py`, lines 86-92).  The returned list is the
window list after the call (the source mutates it in place through
`_cut_window`); the first window containing `[start_min, start_min+dur)`
is cut, later windows are untouched, and scanning past a window keeps it. -/
def place_fixed (windows : List Iv) (start_min dur : Int) : Option Iv × List Iv :=
  match windows with
  | [] => (none, [])
  | w :: rest =>
    if start_min ≥ w.1 ∧ start_min + dur ≤ w.2 then
      (some (start_min, start_min + dur), cut_parts w start_min (start_min + dur) ++ rest)
    else
      let r := place_fixed rest start_min dur
      (r.1, w :: r.2)

/-- Function `place_first_fit` (`ai_engine.py`, lines 95-102): the first window of
length at least `dur` receives the task at the window's start. -/
def place_first_fit (windows : List Iv) (dur : Int) : Option Iv × List Iv :=
  match windows with
  | [] => (none, [])
  | w :: rest =>
    if w.2 - w.1 ≥ dur then
      (some (w.1, w.1 + dur), cut_parts w w.1 (w.1 + dur) ++ rest)
    else
      let r := place_first_fit rest dur
      (r.1, w :: r.2)

/-- Structure `TaskIn` of `ai_engine.py`; `fixed_start_hhmm` is carried as its value
in minutes (a Python `None`, and likewise the falsy empty string, become
`none`). -/
structure TaskIn where
  id : Int
  text : String := ""
  duration_min : Int := 30
  fixed_start : Option Int := none
  deriving Repr, DecidableEq

/-- Structure `PlanItemOut` of `ai_engine.py`, with the `HH:MM` strings carried as
minutes. -/
structure PlanItemOut where
  task_id : Int
  start_min : Int
  end_min : Int
  deriving Repr, DecidableEq

/-- The interval occupied by a plan item. -/
def PlanItemOut.iv (it : PlanItemOut) : Iv := (it.start_min, it.end_min)

/-- Order used by the final `plan.sort(key=...)` of `build_plan`: by start
time (Python's stable sort; `insertionSort` is likewise stable). -/
def itemLe (a b : PlanItemOut) : Prop := a.start_min ≤ b.start_min

instance : DecidableRel itemLe := fun _ _ => inferInstanceAs (Decidable (_ ≤ _))

/-- The loop of `build_plan` over fixed-time tasks (`ai_engine.py`, lines
127-133): returns the plan items appended, the ids added to `used`, and
the window list after the pass.  A task whose placement fails adds
nothing. -/
def fixed_pass (windows : List Iv) : List TaskIn → List PlanItemOut × List Int × List Iv
  | [] => ([], [], windows)
  | t :: rest =>
    match t.fixed_start with
    | some s =>
      match place_fixed windows s t.duration_min with
      | (some iv, w1) =>
        let r := fixed_pass w1 rest
        (⟨t.id, iv.1, iv.2⟩ :: r.1, t.id :: r.2.1, r.2.2)
      | (none, w1) => fixed_pass w1 rest
    | none => fixed_pass windows rest

/-- The loop of `build_plan` over the remaining tasks (`ai_engine.py`,
lines 136-141), using first-fit placement. -/
def nonfixed_pass (windows : List Iv) : List TaskIn → List PlanItemOut × List Int × List Iv
  | [] => ([], [], windows)
  | t :: rest =>
    match place_first_fit windows t.duration_min with
    | (some iv, w1) =>
      let r := nonfixed_pass w1 rest
      (⟨t.id, iv.1, iv.2⟩ :: r.1, t.id :: r.2.1, r.2.2)
    | (none, w1) => nonfixed_pass w1 rest

/-- Function `build_plan` (`ai_engine.py`, lines 105-145): compute free windows,
place fixed-time tasks first, then the rest first-fit, sort the items by
start time, and report the ids of tasks that were not placed. -/
def build_plan (tasks : List TaskIn) (avail : Iv) (busy : List Iv) :
    List PlanItemOut × List Int :=
  let windows := free_windows avail.1 avail.2 busy
  let fixed := tasks.filter (fun t => t.fixed_start.isSome)
  let nonfixed := tasks.filter (fun t => t.fixed_start.isNone)
  let r1 := fixed_pass windows fixed
  let r2 := nonfixed_pass r1.2.2 nonfixed
  let used := r1.2.1 ++ r2.2.1
  let plan := List.insertionSort itemLe (r1.1 ++ r2.1)
  (plan, (tasks.filter (fun t => decide (t.id ∉ used))).map (fun t => t.id))

/-! ### The cursor-based generator of `database.py` (`generate_plan`) -/

/-- The task data `generate_plan` reads from a task row: id, the optional
stored start time in minutes (a SQL `NULL` and the sentinel `"--:--"`,
both of which the source treats as "no fixed time", become `none`), and
the optional `estimated_minutes`. -/
structure GTask where
  id : Int
  start_time : Option Int := none
  estimated_minutes : Option Int := none
  deriving Repr, DecidableEq

/-- Duration resolution `dur = t.estimated_minutes or 30` (`database.py`, line 674): Python's
`or` replaces both `None` and the falsy `0` by 30. -/
def durOf (t : GTask) : Int :=
  match t.estimated_minutes with
  | none => 30
  | some v => if v = 0 then 30 else v

/-- Predicate `is_free` (`database.py`, lines 664-670): a slot is free iff it lies
inside the availability window and intersects no busy interval. -/
def is_free (aS aE : Int) (busy : List Iv) (s e : Int) : Bool :=
  if s < aS ∨ e > aE then false
  else busy.all (fun b => decide (e ≤ b.1 ∨ s ≥ b.2))

/-- The probe loop of `generate_plan` (`database.py`, lines 685-692):
starting at `probe`, advance in steps of 5 minutes while
`probe + dur ≤ aE`, returning the first free probe position.  The `fuel`
argument makes the recursion structural; `probeLoop` below passes exactly
the number of loop iterations the source performs, so the two agree. -/
def probeAux (aS aE : Int) (busy : List Iv) (dur : Int) : Nat → Int → Option Int
  | 0, _ => none
  | fuel + 1, probe =>
    if probe + dur ≤ aE then
      if is_free aS aE busy probe (probe + dur) then some probe
      else probeAux aS aE busy dur fuel (probe + 5)
    else none

/-- The probe loop with its exact iteration count: the source's `while`
runs for probe positions `probe, probe+5, ...` while `probe + dur ≤ aE`,
which is `(aE - dur - probe) / 5 + 1` iterations (and none when the bound
is already violated, in which case the fuel computes to 0 or the first
guard fails identically). -/
def probeLoop (aS aE : Int) (busy : List Iv) (dur probe : Int) : Option Int :=
  probeAux aS aE busy dur ((aE - dur - probe) / 5 + 1).toNat probe

/-- The placement loop of `generate_plan` (`database.py`, lines 672-695):
tasks are taken in delivered order; a task with a stored start time is
placed exactly there when that slot is free (the cursor does not move);
otherwise the task falls through to the probe loop from the current
cursor, and a successful probe placement advances the cursor to the
placed end.  A task that fits nowhere is skipped. -/
def genLoop (aS aE : Int) (busy : List Iv) : Int → List GTask → List PlanItemOut
  | _, [] => []
  | cursor, t :: rest =>
    let dur := durOf t
    let fixedPlaced : Option Iv :=
      match t.start_time with
      | some s => if is_free aS aE busy s (s + dur) then some (s, s + dur) else none
      | none => none
    match fixedPlaced with
    | some iv => ⟨t.id, iv.1, iv.2⟩ :: genLoop aS aE busy cursor rest
    | none =>
      match probeLoop aS aE busy dur cursor with
      | some p => ⟨t.id, p, p + dur⟩ :: genLoop aS aE busy (p + dur) rest
      | none => genLoop aS aE busy cursor rest

/-! ### The store layer of `database.py`

The tables touched by the plan operations are embedded as lists of rows in
insertion order; `db.add` appends, a query filters.  Dates are abstract
integers.  Auto-increment primary keys are modelled by explicit
`next_..._id` counters. -/

/-- A row of the `plans` table. -/
structure PlanRow where
  id : Int
  user_id : Int
  date : Int
  version : Int
  is_locked : Bool
  deriving Repr, DecidableEq

/-- A row of the `plan_items` table (`HH:MM` strings as minutes). -/
structure PlanItemRow where
  plan_id : Int
  task_id : Int
  start_min : Int
  end_min : Int
  deriving Repr, DecidableEq

/-- The columns of a `tasks` row that `generate_plan` reads. -/
structure TaskRowDB where
  id : Int
  user_id : Int
  date : Int
  start_time : Option Int := none
  done : Bool := false
  estimated_minutes : Option Int := none
  deriving Repr, DecidableEq

/-- A row of the `availability` table. -/
structure AvailRow where
  user_id : Int
  date : Int
  start_min : Int
  end_min : Int
  deriving Repr, DecidableEq

/-- A row of the `busy_blocks` table. -/
structure BusyRow where
  user_id : Int
  date : Int
  start_min : Int
  end_min : Int
  deriving Repr, DecidableEq

/-- The stored state read and written by the plan operations: the `users`
table as `(tg_id, id)` pairs plus the tables above. -/
structure DBState where
  users : List (Int × Int) := []
  next_user_id : Int := 1
  plans : List PlanRow := []
  next_plan_id : Int := 1
  plan_items : List PlanItemRow := []
  tasks : List TaskRowDB := []
  avails : List AvailRow := []
  busys : List BusyRow := []
  deriving Repr, DecidableEq

/-- The `users` lookup by Telegram id performed by
`_get_or_create_user_id` (`database.py`, lines 186-194). -/
def lookupUser (st : DBState) (tg : Int) : Option Int :=
  (st.users.find? (fun u => decide (u.1 = tg))).map (fun u => u.2)

/-- Function `_get_or_create_user_id` (`database.py`, lines 186-194): return the
existing user id, or insert a fresh `users` row and return its id. -/
def _get_or_create_user_id (st : DBState) (tg : Int) : Int × DBState :=
  match lookupUser st tg with
  | some uid => (uid, st)
  | none =>
    (st.next_user_id,
      { st with
        users := st.users ++ [(tg, st.next_user_id)]
        next_user_id := st.next_user_id + 1 })

/-- Descending order on plan versions, the `order_by(Plan.version.desc())`
of `_current_plan`. -/
def verGe (p q : PlanRow) : Prop := q.version ≤ p.version

instance : DecidableRel verGe := fun _ _ => inferInstanceAs (Decidable (_ ≤ _))

instance : IsTotal PlanRow verGe := ⟨fun a b => le_total b.version a.version⟩

instance : IsTrans PlanRow verGe := ⟨fun _ _ _ h1 h2 => le_trans h2 h1⟩

/-- Function `_current_plan` (`database.py`, lines 605-608): the first plan row for
the user and date when ordered by version, descending. -/
def _current_plan (st : DBState) (uid d : Int) : Option PlanRow :=
  (List.insertionSort verGe
      (st.plans.filter (fun p => decide (p.user_id = uid ∧ p.date = d)))).head?

/-- Function `lock_plan` (`database.py`, lines 617-624): set `is_locked` on the
current plan, reporting `false` (and changing nothing) when no plan
exists. -/
def lock_plan (st : DBState) (tg d : Int) : Bool × DBState :=
  let r := _get_or_create_user_id st tg
  match _current_plan r.2 r.1 d with
  | none => (false, r.2)
  | some p =>
    (true,
      { r.2 with
        plans := r.2.plans.map (fun q => if q.id = p.id then { q with is_locked := true } else q) })

/-- Order `order_by(Task.start_time.asc().nullslast(), Task.id.asc())` of the
task query in `generate_plan` (`database.py`, lines 646-649): start times
ascending with `NULL` last, ties by id. -/
def taskLe (a b : TaskRowDB) : Prop :=
  match a.start_time, b.start_time with
  | none, none => a.id ≤ b.id
  | none, some _ => False
  | some _, none => True
  | some x, some y => x < y ∨ (x = y ∧ a.id ≤ b.id)

instance : DecidableRel taskLe := fun a b => by
  unfold taskLe
  match a.start_time, b.start_time with
  | none, none => exact inferInstanceAs (Decidable (_ ≤ _))
  | none, some _ => exact inferInstanceAs (Decidable False)
  | some _, none => exact inferInstanceAs (Decidable True)
  | some _, some _ => exact inferInstanceAs (Decidable (_ ∨ _))

/-- The `GTask` view of a task row used by the placement loop. -/
def toGTask (t : TaskRowDB) : GTask :=
  ⟨t.id, t.start_time, t.estimated_minutes⟩

/-- The availability half of `get_availability_and_busy` (`database.py`,
lines 596-601): the stored window for the user and date, if any. -/
def availFor (st : DBState) (uid d : Int) : Option Iv :=
  (st.avails.find? (fun a => decide (a.user_id = uid ∧ a.date = d))).map
    (fun a => (a.start_min, a.end_min))

/-- The busy half of `get_availability_and_busy`: all stored busy blocks
for the user and date, in insertion order. -/
def busyFor (st : DBState) (uid d : Int) : List Iv :=
  (st.busys.filter (fun b => decide (b.user_id = uid ∧ b.date = d))).map
    (fun b => (b.start_min, b.end_min))

/-- Function `generate_plan` (`database.py`, lines 627-698).  Returns
`Except.error "PLAN_LOCKED"` (the source raises
`RuntimeError("PLAN_LOCKED")`) when the current plan is locked, leaving
the state as committed so far; otherwise inserts the new plan row with the
next version, runs the placement loop over the pending tasks in query
order against the availability window (default 09:00-21:00, i.e.
540-1260) and the lexicographically sorted busy list, inserts the
resulting items, and returns the new plan id. -/
def generate_plan (st : DBState) (tg d : Int) : Except String Int × DBState :=
  let r := _get_or_create_user_id st tg
  let uid := r.1
  let st1 := r.2
  let cur := _current_plan st1 uid d
  if (cur.map (fun c => c.is_locked)).getD false then (.error "PLAN_LOCKED", st1)
  else
    let next_version : Int := match cur with | some c => c.version + 1 | none => 1
    let pid := st1.next_plan_id
    let st2 :=
      { st1 with
        plans := st1.plans ++ [({ id := pid, user_id := uid, date := d, version := next_version, is_locked := false } : PlanRow)]
        next_plan_id := pid + 1 }
    let st3 :=
      { st2 with plan_items := st2.plan_items.filter (fun it => decide (it.plan_id ≠ pid)) }
    let pending :=
      List.insertionSort taskLe
        (st3.tasks.filter (fun t => decide (t.user_id = uid ∧ t.date = d) && !t.done))
    let r2 := _get_or_create_user_id st3 tg
    let st4 := r2.2
    let avail := (availFor st4 r2.1 d).getD (540, 1260)
    let busySorted := List.insertionSort tupLe (busyFor st4 r2.1 d)
    let items := genLoop avail.1 avail.2 busySorted avail.1 (pending.map toGTask)
    let st5 :=
      { st4 with
        plan_items :=
          st4.plan_items ++
            items.map (fun it =>
              ({ plan_id := pid, task_id := it.task_id, start_min := it.start_min,
                 end_min := it.end_min } : PlanItemRow)) }
    (.ok pid, st5)

/-- Order of the item query in `get_plan_items`:
`order_by(PlanItem.start_time.asc())`. -/
def rowStartLe (a b : PlanItemRow) : Prop := a.start_min ≤ b.start_min

instance : DecidableRel rowStartLe := fun _ _ => inferInstanceAs (Decidable (_ ≤ _))

/-- Function `get_plan_items` (`database.py`, lines 701-716): resolve the user
(creating it when absent, exactly as the source's
`_get_or_create_user_id` call does), read the current plan and its items
ordered by start time, and return `(plan_id, version, locked, items)`.
The join to `tasks` only attaches the display text and is dropped here. -/
def get_plan_items (st : DBState) (tg d : Int) :
    (Option Int × Option Int × Bool × List PlanItemRow) × DBState :=
  let r := _get_or_create_user_id st tg
  match _current_plan r.2 r.1 d with
  | none => ((none, none, false, []), r.2)
  | some p =>
    ((some p.id, some p.version, p.is_locked,
        List.insertionSort rowStartLe
          (r.2.plan_items.filter (fun it => decide (it.plan_id = p.id)))),
      r.2)

/-- The version of the current plan for a user and date, `0` when no plan
exists (so that "next version" is uniformly this value plus one). -/
def latestVersion (st : DBState) (uid d : Int) : Int :=
  ((_current_plan st uid d).map (fun p => p.version)).getD 0

/-! ### Interval basics -/

theorem tupLe_refl (a : Iv) : tupLe a a := by unfold tupLe; omega

theorem tupLe_trans {a b c : Iv} (h1 : tupLe a b) (h2 : tupLe b c) : tupLe a c := by
  unfold tupLe at *; omega

theorem ivWithin_refl (a : Iv) : IvWithin a a := by unfold IvWithin; omega

theorem ivWithin_trans {a b c : Iv} (h1 : IvWithin a b) (h2 : IvWithin b c) :
    IvWithin a c := by
  unfold IvWithin at *; omega

theorem ivDisjoint_comm {a b : Iv} (h : IvDisjoint a b) : IvDisjoint b a := by
  unfold IvDisjoint at *; omega

theorem ivDisjoint_of_within {a' a b : Iv} (hw : IvWithin a' a) (hd : IvDisjoint a b) :
    IvDisjoint a' b := by
  unfold IvWithin IvDisjoint at *; omega

theorem exists_point_of_not_ivDisjoint {a b : Iv} (h : ¬ IvDisjoint a b) :
    ∃ x, (a.1 ≤ x ∧ x < a.2) ∧ (b.1 ≤ x ∧ x < b.2) := by
  refine ⟨max a.1 b.1, ?_⟩
  unfold IvDisjoint at h; omega

theorem ivDisjoint_of_point_free {a b : Iv}
    (h : ∀ x, a.1 ≤ x → x < a.2 → ¬(b.1 ≤ x ∧ x < b.2)) : IvDisjoint a b := by
  by_contra hc
  obtain ⟨x, hx1, hx2⟩ := exists_point_of_not_ivDisjoint hc
  exact h x hx1.1 hx1.2 hx2

/-! ### Lemmas about `merge_ranges` -/

theorem mergeLoop_le (cur : Iv) (rest : List Iv) (hr : rest.Pairwise tupLe)
    (hc : ∀ x ∈ rest, tupLe cur x) : ∀ o ∈ mergeLoop cur rest, tupLe cur o := by
  induction rest generalizing cur with
  | nil =>
    intro o ho
    simp only [mergeLoop, List.mem_singleton] at ho
    subst ho; exact tupLe_refl _
  | cons hd tl ih =>
    obtain ⟨s, e⟩ := hd
    have hhd : ∀ x ∈ tl, tupLe (s, e) x := fun x hx => List.rel_of_pairwise_cons hr hx
    have htl : tl.Pairwise tupLe := hr.of_cons
    have hcur : tupLe cur (s, e) := hc (s, e) (List.mem_cons_self _ _)
    intro o ho
    rw [mergeLoop] at ho
    by_cases hse : s ≤ cur.2
    · rw [if_pos hse] at ho
      have hc' : ∀ x ∈ tl, tupLe (cur.1, max cur.2 e) x := by
        intro x hx
        have h3 := hhd x hx
        unfold tupLe at hcur h3 ⊢; omega
      have hstep : tupLe cur (cur.1, max cur.2 e) := by unfold tupLe; omega
      exact tupLe_trans hstep (ih (cur.1, max cur.2 e) htl hc' o ho)
    · rw [if_neg hse] at ho
      rcases List.mem_cons.mp ho with rfl | ho'
      · exact tupLe_refl _
      · exact tupLe_trans hcur (ih (s, e) htl hhd o ho')

theorem mergeLoop_sep (cur : Iv) (rest : List Iv) (hr : rest.Pairwise tupLe)
    (hc : ∀ x ∈ rest, tupLe cur x) :
    (mergeLoop cur rest).Pairwise (fun a b => a.2 < b.1 ∧ tupLe a b) := by
  induction rest generalizing cur with
  | nil => simp [mergeLoop]
  | cons hd tl ih =>
    obtain ⟨s, e⟩ := hd
    have hhd : ∀ x ∈ tl, tupLe (s, e) x := fun x hx => List.rel_of_pairwise_cons hr hx
    have htl : tl.Pairwise tupLe := hr.of_cons
    have hcur : tupLe cur (s, e) := hc (s, e) (List.mem_cons_self _ _)
    rw [mergeLoop]
    by_cases hse : s ≤ cur.2
    · rw [if_pos hse]
      have hc' : ∀ x ∈ tl, tupLe (cur.1, max cur.2 e) x := by
        intro x hx
        have h3 := hhd x hx
        unfold tupLe at hcur h3 ⊢; omega
      exact ih (cur.1, max cur.2 e) htl hc'
    · rw [if_neg hse]
      refine List.pairwise_cons.mpr ⟨?_, ih (s, e) htl hhd⟩
      intro o ho
      have h1 := mergeLoop_le (s, e) tl htl hhd o ho
      constructor
      · unfold tupLe at h1; omega
      · exact tupLe_trans hcur h1

theorem mergeLoop_eq_of_sep (cur : Iv) (rest : List Iv)
    (h : (cur :: rest).Pairwise (fun a b : Iv => a.2 < b.1)) :
    mergeLoop cur rest = cur :: rest := by
  induction rest generalizing cur with
  | nil => rfl
  | cons hd tl ih =>
    obtain ⟨s, e⟩ := hd
    have h1 : cur.2 < s := List.rel_of_pairwise_cons h (List.mem_cons_self _ _)
    rw [mergeLoop, if_neg (by omega), ih (s, e) h.of_cons]

/-- Claim helper: the result of `merge_ranges` is separated and sorted. -/
theorem merge_ranges_sep (l : List Iv) :
    (merge_ranges l).Pairwise (fun a b => a.2 < b.1 ∧ tupLe a b) := by
  unfold merge_ranges
  cases hs : List.insertionSort tupLe l with
  | nil => simp
  | cons r rest =>
    have hsorted : (r :: rest).Pairwise tupLe := by
      rw [← hs]; exact List.sorted_insertionSort tupLe l
    exact mergeLoop_sep r rest hsorted.of_cons (fun x hx => List.rel_of_pairwise_cons hsorted hx)

/-- Claim C9: merging an already-merged list returns it unchanged. -/
theorem merge_ranges_idem (l : List Iv) :
    merge_ranges (merge_ranges l) = merge_ranges l := by
  have hsep := merge_ranges_sep l
  have hsorted : (merge_ranges l).Pairwise tupLe := hsep.imp (fun h => h.2)
  conv_lhs => rw [merge_ranges]
  rw [List.Sorted.insertionSort_eq hsorted]
  cases hm : merge_ranges l with
  | nil => rfl
  | cons r rest =>
    have : (r :: rest).Pairwise (fun a b : Iv => a.2 < b.1) := by
      rw [← hm]; exact hsep.imp (fun h => h.1)
    exact mergeLoop_eq_of_sep r rest this

theorem mergeLoop_wf (cur : Iv) (rest : List Iv) (hcur : cur.1 ≤ cur.2)
    (hrest : ∀ x ∈ rest, x.1 ≤ x.2) : ∀ y ∈ mergeLoop cur rest, y.1 ≤ y.2 := by
  induction rest generalizing cur with
  | nil =>
    intro y hy
    simp only [mergeLoop, List.mem_singleton] at hy
    subst hy; exact hcur
  | cons hd tl ih =>
    obtain ⟨s, e⟩ := hd
    intro y hy
    rw [mergeLoop] at hy
    have hhd : s ≤ e := hrest (s, e) (List.mem_cons_self _ _)
    have htl : ∀ x ∈ tl, x.1 ≤ x.2 := fun x hx => hrest x (List.mem_cons_of_mem _ hx)
    by_cases hse : s ≤ cur.2
    · rw [if_pos hse] at hy
      exact ih (cur.1, max cur.2 e) (by simp; omega) htl y hy
    · rw [if_neg hse] at hy
      rcases List.mem_cons.mp hy with rfl | hy'
      · exact hcur
      · exact ih (s, e) hhd htl y hy'

theorem merge_ranges_wf (l : List Iv) (h : ∀ x ∈ l, x.1 ≤ x.2) :
    ∀ y ∈ merge_ranges l, y.1 ≤ y.2 := by
  unfold merge_ranges
  cases hs : List.insertionSort tupLe l with
  | nil => simp
  | cons r rest =>
    have hall : ∀ x ∈ r :: rest, x.1 ≤ x.2 := by
      intro x hx
      exact h x ((List.mem_insertionSort tupLe).mp (hs ▸ hx))
    exact mergeLoop_wf r rest (hall r (List.mem_cons_self _ _))
      (fun x hx => hall x (List.mem_cons_of_mem _ hx))

theorem mergeLoop_cover (cur : Iv) (rest : List Iv) (x : Int) :
    ∀ m ∈ mergeLoop cur rest, m.1 ≤ x → x < m.2 →
      (cur.1 ≤ x ∧ x < cur.2) ∨ ∃ b ∈ rest, b.1 ≤ x ∧ x < b.2 := by
  induction rest generalizing cur with
  | nil =>
    intro m hm h1 h2
    simp only [mergeLoop, List.mem_singleton] at hm
    subst hm; exact Or.inl ⟨h1, h2⟩
  | cons hd tl ih =>
    obtain ⟨s, e⟩ := hd
    intro m hm h1 h2
    rw [mergeLoop] at hm
    by_cases hse : s ≤ cur.2
    · rw [if_pos hse] at hm
      rcases ih (cur.1, max cur.2 e) m hm h1 h2 with hin | ⟨b, hb, hbx⟩
      · simp only at hin
        by_cases hx : x < cur.2
        · exact Or.inl ⟨hin.1, hx⟩
        · refine Or.inr ⟨(s, e), List.mem_cons_self _ _, ?_, ?_⟩ <;> simp <;> omega
      · exact Or.inr ⟨b, List.mem_cons_of_mem _ hb, hbx⟩
    · rw [if_neg hse] at hm
      rcases List.mem_cons.mp hm with rfl | hm'
      · exact Or.inl ⟨h1, h2⟩
      · rcases ih (s, e) m hm' h1 h2 with hin | ⟨b, hb, hbx⟩
        · exact Or.inr ⟨(s, e), List.mem_cons_self _ _, hin⟩
        · exact Or.inr ⟨b, List.mem_cons_of_mem _ hb, hbx⟩

/-- Every point covered by a merged interval was covered by an input
interval: `merge_ranges` does not enlarge the covered set. -/
theorem merge_ranges_cover (l : List Iv) (x : Int) :
    ∀ m ∈ merge_ranges l, m.1 ≤ x → x < m.2 → ∃ b ∈ l, b.1 ≤ x ∧ x < b.2 := by
  unfold merge_ranges
  cases hs : List.insertionSort tupLe l with
  | nil => simp
  | cons r rest =>
    intro m hm h1 h2
    have hsub : ∀ y, y ∈ r :: rest → y ∈ l := by
      intro y hy
      exact (List.mem_insertionSort tupLe).mp (hs ▸ hy)
    rcases mergeLoop_cover r rest x m hm h1 h2 with hin | ⟨b, hb, hbx⟩
    · exact ⟨r, hsub r (List.mem_cons_self _ _), hin⟩
    · exact ⟨b, hsub b (List.mem_cons_of_mem _ hb), hbx⟩

/-- An interval disjoint from every member of a list is disjoint from
every member of the merged list. -/
theorem ivDisjoint_merge_of_all (l : List Iv) (a : Iv)
    (h : ∀ b ∈ l, IvDisjoint a b) : ∀ m ∈ merge_ranges l, IvDisjoint a m := by
  intro m hm
  refine ivDisjoint_of_point_free ?_
  intro x hx1 hx2 hxm
  obtain ⟨b, hb, hbx⟩ := merge_ranges_cover l x m hm hxm.1 hxm.2
  have := h b hb
  unfold IvDisjoint at this; omega

/-! ### Lemmas about `free_windows` -/

theorem subtractBusy_mem (b w p : Iv) (hp : p ∈ subtractBusy b w) :
    (p = w ∧ (b.2 ≤ w.1 ∨ w.2 ≤ b.1)) ∨
      (w.1 < b.2 ∧ b.1 < w.2 ∧
        ((w.1 < b.1 ∧ p = (w.1, b.1)) ∨ (b.2 < w.2 ∧ p = (b.2, w.2)))) := by
  unfold subtractBusy at hp
  by_cases h : b.2 ≤ w.1 ∨ b.1 ≥ w.2
  · rw [if_pos h] at hp
    simp only [List.mem_singleton] at hp
    exact Or.inl ⟨hp, by omega⟩
  · rw [if_neg h] at hp
    refine Or.inr ⟨by omega, by omega, ?_⟩
    rcases List.mem_append.mp hp with h1 | h1
    · by_cases hc : w.1 < b.1
      · rw [if_pos hc] at h1
        simp only [List.mem_singleton] at h1
        exact Or.inl ⟨hc, h1⟩
      · rw [if_neg hc] at h1
        exact absurd h1 (List.not_mem_nil p)
    · by_cases hc : b.2 < w.2
      · rw [if_pos hc] at h1
        simp only [List.mem_singleton] at h1
        exact Or.inr ⟨hc, h1⟩
      · rw [if_neg hc] at h1
        exact absurd h1 (List.not_mem_nil p)

theorem subtractBusy_within (b w : Iv) : ∀ p ∈ subtractBusy b w, IvWithin p w := by
  intro p hp
  rcases subtractBusy_mem b w p hp with ⟨rfl, _⟩ | ⟨h1, h2, ⟨_, rfl⟩ | ⟨_, rfl⟩⟩ <;>
    simp only [IvWithin] <;> omega

theorem subtractBusy_disj (b w : Iv) : ∀ p ∈ subtractBusy b w, IvDisjoint p b := by
  intro p hp
  rcases subtractBusy_mem b w p hp with ⟨rfl, _⟩ | ⟨h1, h2, ⟨_, rfl⟩ | ⟨_, rfl⟩⟩ <;>
    simp only [IvDisjoint] <;> omega

theorem subtractBusy_pairwise (b w : Iv) (hb : b.1 ≤ b.2) :
    (subtractBusy b w).Pairwise IvDisjoint := by
  unfold subtractBusy
  split
  · simp
  · split <;> split <;> simp_all [IvDisjoint] <;> omega

/-- One subtraction pass (the body of the `for bs, be in busy_m` loop)
seen through `flatten`. -/
theorem subtractStep_pairwise (b : Iv) (hb : b.1 ≤ b.2) (ws : List Iv)
    (hws : ws.Pairwise IvDisjoint) :
    ((ws.map (subtractBusy b)).flatten).Pairwise IvDisjoint := by
  refine List.pairwise_flatten.mpr ⟨?_, ?_⟩
  · intro s hs
    obtain ⟨w, _, rfl⟩ := List.mem_map.mp hs
    exact subtractBusy_pairwise b w hb
  · refine (List.pairwise_map.mpr ?_)
    refine hws.imp ?_
    intro w1 w2 h12 x hx y hy
    exact ivDisjoint_of_within (subtractBusy_within b w1 x hx)
      (ivDisjoint_comm (ivDisjoint_of_within (subtractBusy_within b w2 y hy)
        (ivDisjoint_comm h12)))

/-- Membership description of the subtraction fold: every surviving window
fits inside an initial window and avoids every busy interval processed. -/
theorem subtractFold_mem (bs : List Iv) (ws : List Iv) (w' : Iv)
    (h : w' ∈ bs.foldl (fun acc b => (acc.map (subtractBusy b)).flatten) ws) :
    ∃ w ∈ ws, IvWithin w' w ∧ ∀ b ∈ bs, IvDisjoint w' b := by
  induction bs generalizing ws with
  | nil => exact ⟨w', h, ivWithin_refl w', by simp⟩
  | cons b bs ih =>
    simp only [List.foldl_cons] at h
    obtain ⟨m, hm, hwithin, hdisj⟩ := ih _ h
    obtain ⟨s, hs, hms⟩ := List.mem_flatten.mp hm
    obtain ⟨w, hw, rfl⟩ := List.mem_map.mp hs
    refine ⟨w, hw, ivWithin_trans hwithin (subtractBusy_within b w m hms), ?_⟩
    intro c hc
    rcases List.mem_cons.mp hc with rfl | hc'
    · exact ivDisjoint_of_within hwithin (subtractBusy_disj c w m hms)
    · exact hdisj c hc'

theorem subtractFold_pairwise (bs : List Iv) (hb : ∀ b ∈ bs, b.1 ≤ b.2) (ws : List Iv)
    (hws : ws.Pairwise IvDisjoint) :
    (bs.foldl (fun acc b => (acc.map (subtractBusy b)).flatten) ws).Pairwise IvDisjoint := by
  induction bs generalizing ws with
  | nil => exact hws
  | cons b bs ih =>
    simp only [List.foldl_cons]
    exact ih (fun c hc => hb c (List.mem_cons_of_mem _ hc)) _
      (subtractStep_pairwise b (hb b (List.mem_cons_self _ _)) ws hws)

/-- Every free window lies in the availability window, avoids every merged
busy interval, and is at least 10 minutes long. -/
theorem free_windows_spec (a0 a1 : Int) (busy : List Iv) :
    ∀ w ∈ free_windows a0 a1 busy,
      IvWithin w (a0, a1) ∧ (∀ b ∈ merge_ranges busy, IvDisjoint w b) ∧ 10 ≤ w.2 - w.1 := by
  intro w hw
  unfold free_windows at hw
  simp only [List.mem_filter, decide_eq_true_eq] at hw
  obtain ⟨hmem, hlen⟩ := hw
  obtain ⟨w0, hw0, hwithin, hdisj⟩ := subtractFold_mem _ _ _ hmem
  simp only [List.mem_singleton] at hw0
  subst hw0
  exact ⟨hwithin, hdisj, by omega⟩

/-- With well-formed busy intervals the free windows are pairwise
disjoint. -/
theorem free_windows_pairwise (a0 a1 : Int) (busy : List Iv)
    (hb : ∀ b ∈ busy, b.1 ≤ b.2) :
    (free_windows a0 a1 busy).Pairwise IvDisjoint := by
  unfold free_windows
  refine List.Pairwise.sublist (List.filter_sublist _) ?_
  exact subtractFold_pairwise _ (merge_ranges_wf busy hb) _ (by simp)

/-! ### Lemmas about the placers -/

theorem cut_parts_mem (w : Iv) (cs ce : Int) (p : Iv) (hp : p ∈ cut_parts w cs ce) :
    10 ≤ p.2 - p.1 ∧ ((w.1 < cs ∧ p = (w.1, cs)) ∨ (ce < w.2 ∧ p = (ce, w.2))) := by
  unfold cut_parts at hp
  rw [List.mem_filter] at hp
  obtain ⟨hmem, hlen⟩ := hp
  rw [decide_eq_true_eq] at hlen
  refine ⟨by omega, ?_⟩
  rcases List.mem_append.mp hmem with h1 | h1
  · by_cases hc : w.1 < cs
    · rw [if_pos hc] at h1
      simp only [List.mem_singleton] at h1
      exact Or.inl ⟨hc, h1⟩
    · rw [if_neg hc] at h1
      exact absurd h1 (List.not_mem_nil p)
  · by_cases hc : ce < w.2
    · rw [if_pos hc] at h1
      simp only [List.mem_singleton] at h1
      exact Or.inr ⟨hc, h1⟩
    · rw [if_neg hc] at h1
      exact absurd h1 (List.not_mem_nil p)

theorem cut_parts_within (w : Iv) (cs ce : Int) (hc : w.1 ≤ cs ∧ cs ≤ ce ∧ ce ≤ w.2) :
    ∀ p ∈ cut_parts w cs ce, IvWithin p w := by
  intro p hp
  rcases (cut_parts_mem w cs ce p hp).2 with ⟨h1, rfl⟩ | ⟨h1, rfl⟩ <;>
    simp only [IvWithin] <;> omega

theorem cut_parts_disj_cut (w : Iv) (cs ce : Int) :
    ∀ p ∈ cut_parts w cs ce, IvDisjoint p (cs, ce) := by
  intro p hp
  rcases (cut_parts_mem w cs ce p hp).2 with ⟨h1, rfl⟩ | ⟨h1, rfl⟩ <;>
    simp only [IvDisjoint] <;> omega

theorem cut_parts_pairwise (w : Iv) (cs ce : Int) (hc : cs ≤ ce) :
    (cut_parts w cs ce).Pairwise IvDisjoint := by
  unfold cut_parts
  refine List.Pairwise.sublist (List.filter_sublist _) ?_
  by_cases h1 : w.1 < cs <;> by_cases h2 : ce < w.2 <;>
    simp [h1, h2, IvDisjoint] <;> omega

theorem place_fixed_some (ws : List Iv) (s d : Int) (iv : Iv)
    (h : (place_fixed ws s d).1 = some iv) :
    iv = (s, s + d) ∧ ∃ w ∈ ws, w.1 ≤ s ∧ s + d ≤ w.2 ∧ IvWithin iv w := by
  induction ws with
  | nil => simp [place_fixed] at h
  | cons w rest ih =>
    rw [place_fixed] at h
    by_cases hg : s ≥ w.1 ∧ s + d ≤ w.2
    · rw [if_pos hg] at h
      simp only [Option.some.injEq] at h
      subst h
      exact ⟨rfl, w, List.mem_cons_self _ _, hg.1, hg.2, by simp [IvWithin]; omega⟩
    · rw [if_neg hg] at h
      obtain ⟨hv, w0, hw0, hfacts⟩ := ih h
      exact ⟨hv, w0, List.mem_cons_of_mem _ hw0, hfacts⟩

theorem place_fixed_none_iff (ws : List Iv) (s d : Int) :
    (place_fixed ws s d).1 = none ↔ ∀ w ∈ ws, ¬(w.1 ≤ s ∧ s + d ≤ w.2) := by
  induction ws with
  | nil => simp [place_fixed]
  | cons w rest ih =>
    rw [place_fixed]
    by_cases hg : s ≥ w.1 ∧ s + d ≤ w.2
    · rw [if_pos hg]
      simp only [List.mem_cons]
      constructor
      · intro h; exact absurd h (by simp)
      · intro h; exact absurd ⟨hg.1, hg.2⟩ (h w (Or.inl rfl))
    · rw [if_neg hg]
      simp only [List.mem_cons]
      constructor
      · intro h x hx
        rcases hx with rfl | hx'
        · omega
        · exact (ih.mp h) x hx'
      · intro h
        exact ih.mpr (fun x hx => h x (Or.inr hx))

theorem place_fixed_none_frame (ws : List Iv) (s d : Int)
    (h : (place_fixed ws s d).1 = none) : (place_fixed ws s d).2 = ws := by
  induction ws with
  | nil => rfl
  | cons w rest ih =>
    rw [place_fixed] at h ⊢
    by_cases hg : s ≥ w.1 ∧ s + d ≤ w.2
    · rw [if_pos hg] at h; simp at h
    · rw [if_neg hg] at h ⊢
      simp only [List.cons.injEq, true_and]
      exact ih h

theorem place_fixed_windows_within (ws : List Iv) (s d : Int) (hd : 0 ≤ d) :
    ∀ w2 ∈ (place_fixed ws s d).2, ∃ w ∈ ws, IvWithin w2 w := by
  induction ws with
  | nil => simp [place_fixed]
  | cons w rest ih =>
    intro w2 hw2
    rw [place_fixed] at hw2
    by_cases hg : s ≥ w.1 ∧ s + d ≤ w.2
    · rw [if_pos hg] at hw2
      rcases List.mem_append.mp hw2 with h1 | h1
      · exact ⟨w, List.mem_cons_self _ _, cut_parts_within w s (s + d) (by omega) w2 h1⟩
      · exact ⟨w2, List.mem_cons_of_mem _ h1, ivWithin_refl w2⟩
    · rw [if_neg hg] at hw2
      rcases List.mem_cons.mp hw2 with rfl | h1
      · exact ⟨w2, List.mem_cons_self _ _, ivWithin_refl w2⟩
      · obtain ⟨w0, hw0, hin⟩ := ih w2 h1
        exact ⟨w0, List.mem_cons_of_mem _ hw0, hin⟩

theorem place_fixed_disj_item (ws : List Iv) (s d : Int) (iv : Iv)
    (hp : ws.Pairwise IvDisjoint) (h : (place_fixed ws s d).1 = some iv) :
    ∀ w2 ∈ (place_fixed ws s d).2, IvDisjoint w2 iv := by
  induction ws with
  | nil => simp [place_fixed] at h
  | cons w rest ih =>
    intro w2 hw2
    rw [place_fixed] at h hw2
    by_cases hg : s ≥ w.1 ∧ s + d ≤ w.2
    · rw [if_pos hg] at h hw2
      simp only [Option.some.injEq] at h
      subst h
      rcases List.mem_append.mp hw2 with h1 | h1
      · exact cut_parts_disj_cut w s (s + d) w2 h1
      · have hdw : IvDisjoint w w2 := List.rel_of_pairwise_cons hp h1
        have hwithin : IvWithin (s, s + d) w := by simp [IvWithin]; omega
        exact ivDisjoint_comm (ivDisjoint_of_within hwithin (ivDisjoint_comm (ivDisjoint_comm hdw)))
    · rw [if_neg hg] at h hw2
      rcases List.mem_cons.mp hw2 with rfl | h1
      · obtain ⟨hv, w0, hw0, h1, h2, hiv⟩ := place_fixed_some rest s d iv h
        have hdw : IvDisjoint w2 w0 := List.rel_of_pairwise_cons hp hw0
        exact ivDisjoint_comm (ivDisjoint_of_within hiv (ivDisjoint_comm hdw))
      · exact ih hp.of_cons h w2 h1

theorem place_fixed_pairwise (ws : List Iv) (s d : Int)
    (hp : ws.Pairwise IvDisjoint) (hd : 0 ≤ d) :
    (place_fixed ws s d).2.Pairwise IvDisjoint := by
  induction ws with
  | nil => simp [place_fixed]
  | cons w rest ih =>
    rw [place_fixed]
    by_cases hg : s ≥ w.1 ∧ s + d ≤ w.2
    · rw [if_pos hg]
      simp only
      refine List.pairwise_append.mpr ⟨cut_parts_pairwise w s (s + d) (by omega), hp.of_cons, ?_⟩
      intro p hpmem r hr
      have h1 : IvWithin p w := cut_parts_within w s (s + d) (by omega) p hpmem
      exact ivDisjoint_of_within h1 (List.rel_of_pairwise_cons hp hr)
    · rw [if_neg hg]
      simp only
      refine List.pairwise_cons.mpr ⟨?_, ih hp.of_cons⟩
      intro w2 hw2
      obtain ⟨w0, hw0, hin⟩ := place_fixed_windows_within rest s d hd w2 hw2
      exact ivDisjoint_comm (ivDisjoint_of_within hin (ivDisjoint_comm (List.rel_of_pairwise_cons hp hw0)))

theorem place_first_fit_some (ws : List Iv) (d : Int) (iv : Iv)
    (h : (place_first_fit ws d).1 = some iv) :
    ∃ w ∈ ws, d ≤ w.2 - w.1 ∧ iv = (w.1, w.1 + d) ∧ IvWithin iv w := by
  induction ws with
  | nil => simp [place_first_fit] at h
  | cons w rest ih =>
    rw [place_first_fit] at h
    by_cases hg : w.2 - w.1 ≥ d
    · rw [if_pos hg] at h
      simp only [Option.some.injEq] at h
      subst h
      exact ⟨w, List.mem_cons_self _ _, by omega, rfl, by simp [IvWithin]; omega⟩
    · rw [if_neg hg] at h
      obtain ⟨w0, hw0, hfacts⟩ := ih h
      exact ⟨w0, List.mem_cons_of_mem _ hw0, hfacts⟩

theorem place_first_fit_none_iff (ws : List Iv) (d : Int) :
    (place_first_fit ws d).1 = none ↔ ∀ w ∈ ws, w.2 - w.1 < d := by
  induction ws with
  | nil => simp [place_first_fit]
  | cons w rest ih =>
    rw [place_first_fit]
    by_cases hg : w.2 - w.1 ≥ d
    · rw [if_pos hg]
      simp only [List.mem_cons]
      constructor
      · intro h; exact absurd h (by simp)
      · intro h; exact absurd (h w (Or.inl rfl)) (by omega)
    · rw [if_neg hg]
      simp only [List.mem_cons]
      constructor
      · intro h x hx
        rcases hx with rfl | hx'
        · omega
        · exact (ih.mp h) x hx'
      · intro h
        exact ih.mpr (fun x hx => h x (Or.inr hx))

theorem place_first_fit_none_frame (ws : List Iv) (d : Int)
    (h : (place_first_fit ws d).1 = none) : (place_first_fit ws d).2 = ws := by
  induction ws with
  | nil => rfl
  | cons w rest ih =>
    rw [place_first_fit] at h ⊢
    by_cases hg : w.2 - w.1 ≥ d
    · rw [if_pos hg] at h; simp at h
    · rw [if_neg hg] at h ⊢
      simp only [List.cons.injEq, true_and]
      exact ih h

theorem place_first_fit_windows_within (ws : List Iv) (d : Int) (hd : 0 ≤ d) :
    ∀ w2 ∈ (place_first_fit ws d).2, ∃ w ∈ ws, IvWithin w2 w := by
  induction ws with
  | nil => simp [place_first_fit]
  | cons w rest ih =>
    intro w2 hw2
    rw [place_first_fit] at hw2
    by_cases hg : w.2 - w.1 ≥ d
    · rw [if_pos hg] at hw2
      rcases List.mem_append.mp hw2 with h1 | h1
      · exact ⟨w, List.mem_cons_self _ _, cut_parts_within w w.1 (w.1 + d) (by omega) w2 h1⟩
      · exact ⟨w2, List.mem_cons_of_mem _ h1, ivWithin_refl w2⟩
    · rw [if_neg hg] at hw2
      rcases List.mem_cons.mp hw2 with rfl | h1
      · exact ⟨w2, List.mem_cons_self _ _, ivWithin_refl w2⟩
      · obtain ⟨w0, hw0, hin⟩ := ih w2 h1
        exact ⟨w0, List.mem_cons_of_mem _ hw0, hin⟩

theorem place_first_fit_disj_item (ws : List Iv) (d : Int) (iv : Iv)
    (hp : ws.Pairwise IvDisjoint) (h : (place_first_fit ws d).1 = some iv) :
    ∀ w2 ∈ (place_first_fit ws d).2, IvDisjoint w2 iv := by
  induction ws with
  | nil => simp [place_first_fit] at h
  | cons w rest ih =>
    intro w2 hw2
    rw [place_first_fit] at h hw2
    by_cases hg : w.2 - w.1 ≥ d
    · rw [if_pos hg] at h hw2
      simp only [Option.some.injEq] at h
      subst h
      rcases List.mem_append.mp hw2 with h1 | h1
      · exact cut_parts_disj_cut w w.1 (w.1 + d) w2 h1
      · have hdw : IvDisjoint w w2 := List.rel_of_pairwise_cons hp h1
        have hwithin : IvWithin (w.1, w.1 + d) w := by simp [IvWithin]; omega
        exact ivDisjoint_comm (ivDisjoint_of_within hwithin hdw)
    · rw [if_neg hg] at h hw2
      rcases List.mem_cons.mp hw2 with rfl | h1
      · obtain ⟨w0, hw0, h1, hv, hiv⟩ := place_first_fit_some rest d iv h
        have hdw : IvDisjoint w2 w0 := List.rel_of_pairwise_cons hp hw0
        exact ivDisjoint_comm (ivDisjoint_of_within hiv (ivDisjoint_comm hdw))
      · exact ih hp.of_cons h w2 h1

theorem place_first_fit_pairwise (ws : List Iv) (d : Int)
    (hp : ws.Pairwise IvDisjoint) (hd : 0 ≤ d) :
    (place_first_fit ws d).2.Pairwise IvDisjoint := by
  induction ws with
  | nil => simp [place_first_fit]
  | cons w rest ih =>
    rw [place_first_fit]
    by_cases hg : w.2 - w.1 ≥ d
    · rw [if_pos hg]
      simp only
      refine List.pairwise_append.mpr ⟨cut_parts_pairwise w w.1 (w.1 + d) (by omega), hp.of_cons, ?_⟩
      intro p hpmem r hr
      have h1 : IvWithin p w := cut_parts_within w w.1 (w.1 + d) (by omega) p hpmem
      exact ivDisjoint_of_within h1 (List.rel_of_pairwise_cons hp hr)
    · rw [if_neg hg]
      simp only
      refine List.pairwise_cons.mpr ⟨?_, ih hp.of_cons⟩
      intro w2 hw2
      obtain ⟨w0, hw0, hin⟩ := place_first_fit_windows_within rest d hd w2 hw2
      exact ivDisjoint_comm (ivDisjoint_of_within hin (ivDisjoint_comm (List.rel_of_pairwise_cons hp hw0)))

/-! ### Invariants of the two passes of `build_plan` -/

theorem fixed_pass_inv (ts : List TaskIn) (ws : List Iv)
    (hp : ws.Pairwise IvDisjoint) (hd : ∀ t ∈ ts, 0 ≤ t.duration_min) :
    (fixed_pass ws ts).1.Pairwise (fun a b => IvDisjoint a.iv b.iv) ∧
      (fixed_pass ws ts).2.2.Pairwise IvDisjoint ∧
      (∀ w2 ∈ (fixed_pass ws ts).2.2, ∃ w ∈ ws, IvWithin w2 w) ∧
      (∀ it ∈ (fixed_pass ws ts).1, ∃ w ∈ ws, IvWithin it.iv w) ∧
      (∀ w2 ∈ (fixed_pass ws ts).2.2, ∀ it ∈ (fixed_pass ws ts).1, IvDisjoint w2 it.iv) := by
  induction ts generalizing ws with
  | nil =>
    simp only [fixed_pass]
    exact ⟨List.Pairwise.nil, hp, fun w2 hw2 => ⟨w2, hw2, ivWithin_refl w2⟩, by simp, by simp⟩
  | cons t rest ih =>
    have hd0 : 0 ≤ t.duration_min := hd t (List.mem_cons_self _ _)
    have hdr : ∀ x ∈ rest, 0 ≤ x.duration_min := fun x hx => hd x (List.mem_cons_of_mem _ hx)
    cases hft : t.fixed_start with
    | none =>
      simp only [fixed_pass, hft]
      exact ih ws hp hdr
    | some s =>
      rcases hpf : place_fixed ws s t.duration_min with ⟨r1, w1⟩
      cases r1 with
      | none =>
        have hw1 : w1 = ws := by
          have := place_fixed_none_frame ws s t.duration_min (by rw [hpf])
          rw [hpf] at this; exact this
        simp only [fixed_pass, hft, hpf, hw1]
        exact ih ws hp hdr
      | some iv =>
        have hsome := place_fixed_some ws s t.duration_min iv (by rw [hpf])
        have hw1p : w1.Pairwise IvDisjoint := by
          have := place_fixed_pairwise ws s t.duration_min hp hd0
          rw [hpf] at this; exact this
        have hw1w : ∀ w2 ∈ w1, ∃ w ∈ ws, IvWithin w2 w := by
          have := place_fixed_windows_within ws s t.duration_min hd0
          rw [hpf] at this; exact this
        have hivd : ∀ w2 ∈ w1, IvDisjoint w2 iv := by
          have := place_fixed_disj_item ws s t.duration_min iv hp (by rw [hpf])
          rw [hpf] at this; exact this
        obtain ⟨ihpl, ihwp, ihww, ihiw, ihcross⟩ := ih w1 hw1p hdr
        simp only [fixed_pass, hft, hpf]
        refine ⟨?_, ihwp, ?_, ?_, ?_⟩
        · refine List.pairwise_cons.mpr ⟨?_, ihpl⟩
          intro it hit
          obtain ⟨w2, hw2, hin⟩ := ihiw it hit
          exact ivDisjoint_comm (ivDisjoint_of_within hin (hivd w2 hw2))
        · intro w2 hw2
          obtain ⟨w0, hw0, h1⟩ := ihww w2 hw2
          obtain ⟨w3, hw3, h2⟩ := hw1w w0 hw0
          exact ⟨w3, hw3, ivWithin_trans h1 h2⟩
        · intro it hit
          rcases List.mem_cons.mp hit with rfl | hit'
          · obtain ⟨hv, w0, hw0, h1, h2, hin⟩ := hsome
            exact ⟨w0, hw0, hin⟩
          · obtain ⟨w0, hw0, h1⟩ := ihiw it hit'
            obtain ⟨w3, hw3, h2⟩ := hw1w w0 hw0
            exact ⟨w3, hw3, ivWithin_trans h1 h2⟩
        · intro w2 hw2 it hit
          rcases List.mem_cons.mp hit with rfl | hit'
          · obtain ⟨w0, hw0, h1⟩ := ihww w2 hw2
            exact ivDisjoint_of_within h1 (hivd w0 hw0)
          · exact ihcross w2 hw2 it hit'

theorem nonfixed_pass_inv (ts : List TaskIn) (ws : List Iv)
    (hp : ws.Pairwise IvDisjoint) (hd : ∀ t ∈ ts, 0 ≤ t.duration_min) :
    (nonfixed_pass ws ts).1.Pairwise (fun a b => IvDisjoint a.iv b.iv) ∧
      (nonfixed_pass ws ts).2.2.Pairwise IvDisjoint ∧
      (∀ w2 ∈ (nonfixed_pass ws ts).2.2, ∃ w ∈ ws, IvWithin w2 w) ∧
      (∀ it ∈ (nonfixed_pass ws ts).1, ∃ w ∈ ws, IvWithin it.iv w) ∧
      (∀ w2 ∈ (nonfixed_pass ws ts).2.2, ∀ it ∈ (nonfixed_pass ws ts).1, IvDisjoint w2 it.iv) := by
  induction ts generalizing ws with
  | nil =>
    simp only [nonfixed_pass]
    exact ⟨List.Pairwise.nil, hp, fun w2 hw2 => ⟨w2, hw2, ivWithin_refl w2⟩, by simp, by simp⟩
  | cons t rest ih =>
    have hd0 : 0 ≤ t.duration_min := hd t (List.mem_cons_self _ _)
    have hdr : ∀ x ∈ rest, 0 ≤ x.duration_min := fun x hx => hd x (List.mem_cons_of_mem _ hx)
    rcases hpf : place_first_fit ws t.duration_min with ⟨r1, w1⟩
    cases r1 with
    | none =>
      have hw1 : w1 = ws := by
        have := place_first_fit_none_frame ws t.duration_min (by rw [hpf])
        rw [hpf] at this; exact this
      simp only [nonfixed_pass, hpf, hw1]
      exact ih ws hp hdr
    | some iv =>
      have hsome := place_first_fit_some ws t.duration_min iv (by rw [hpf])
      have hw1p : w1.Pairwise IvDisjoint := by
        have := place_first_fit_pairwise ws t.duration_min hp hd0
        rw [hpf] at this; exact this
      have hw1w : ∀ w2 ∈ w1, ∃ w ∈ ws, IvWithin w2 w := by
        have := place_first_fit_windows_within ws t.duration_min hd0
        rw [hpf] at this; exact this
      have hivd : ∀ w2 ∈ w1, IvDisjoint w2 iv := by
        have := place_first_fit_disj_item ws t.duration_min iv hp (by rw [hpf])
        rw [hpf] at this; exact this
      obtain ⟨ihpl, ihwp, ihww, ihiw, ihcross⟩ := ih w1 hw1p hdr
      simp only [nonfixed_pass, hpf]
      refine ⟨?_, ihwp, ?_, ?_, ?_⟩
      · refine List.pairwise_cons.mpr ⟨?_, ihpl⟩
        intro it hit
        obtain ⟨w2, hw2, hin⟩ := ihiw it hit
        exact ivDisjoint_comm (ivDisjoint_of_within hin (hivd w2 hw2))
      · intro w2 hw2
        obtain ⟨w0, hw0, h1⟩ := ihww w2 hw2
        obtain ⟨w3, hw3, h2⟩ := hw1w w0 hw0
        exact ⟨w3, hw3, ivWithin_trans h1 h2⟩
      · intro it hit
        rcases List.mem_cons.mp hit with rfl | hit'
        · obtain ⟨w0, hw0, h1, hv, hin⟩ := hsome
          exact ⟨w0, hw0, hin⟩
        · obtain ⟨w0, hw0, h1⟩ := ihiw it hit'
          obtain ⟨w3, hw3, h2⟩ := hw1w w0 hw0
          exact ⟨w3, hw3, ivWithin_trans h1 h2⟩
      · intro w2 hw2 it hit
        rcases List.mem_cons.mp hit with rfl | hit'
        · obtain ⟨w0, hw0, h1⟩ := ihww w2 hw2
          exact ivDisjoint_of_within h1 (hivd w0 hw0)
        · exact ihcross w2 hw2 it hit'

/-! ### Lemmas about the cursor-based generator -/

theorem probeAux_ge (aS aE : Int) (busy : List Iv) (dur : Int) (fuel : Nat) (probe p : Int)
    (h : probeAux aS aE busy dur fuel probe = some p) : probe ≤ p := by
  induction fuel generalizing probe with
  | zero => simp [probeAux] at h
  | succ n ih =>
    rw [probeAux] at h
    by_cases h1 : probe + dur ≤ aE
    · rw [if_pos h1] at h
      by_cases h2 : is_free aS aE busy probe (probe + dur) = true
      · rw [if_pos h2] at h
        simp only [Option.some.injEq] at h
        omega
      · rw [if_neg h2] at h
        have := ih (probe + 5) h
        omega
    · rw [if_neg h1] at h
      exact absurd h (by simp)

theorem probeAux_free (aS aE : Int) (busy : List Iv) (dur : Int) (fuel : Nat) (probe p : Int)
    (h : probeAux aS aE busy dur fuel probe = some p) :
    is_free aS aE busy p (p + dur) = true := by
  induction fuel generalizing probe with
  | zero => simp [probeAux] at h
  | succ n ih =>
    rw [probeAux] at h
    by_cases h1 : probe + dur ≤ aE
    · rw [if_pos h1] at h
      by_cases h2 : is_free aS aE busy probe (probe + dur) = true
      · rw [if_pos h2] at h
        simp only [Option.some.injEq] at h
        subst h; exact h2
      · rw [if_neg h2] at h
        exact ih (probe + 5) h
    · rw [if_neg h1] at h
      exact absurd h (by simp)

theorem probeLoop_ge (aS aE : Int) (busy : List Iv) (dur probe p : Int)
    (h : probeLoop aS aE busy dur probe = some p) : probe ≤ p :=
  probeAux_ge aS aE busy dur _ probe p h

theorem probeLoop_free (aS aE : Int) (busy : List Iv) (dur probe p : Int)
    (h : probeLoop aS aE busy dur probe = some p) :
    is_free aS aE busy p (p + dur) = true :=
  probeAux_free aS aE busy dur _ probe p h

/-- What `is_free` guarantees: the slot is inside availability and misses
every busy interval. -/
theorem is_free_spec (aS aE : Int) (busy : List Iv) (s e : Int)
    (h : is_free aS aE busy s e = true) :
    aS ≤ s ∧ e ≤ aE ∧ ∀ b ∈ busy, IvDisjoint (s, e) b := by
  unfold is_free at h
  by_cases h1 : s < aS ∨ e > aE
  · rw [if_pos h1] at h; exact absurd h (by simp)
  · rw [if_neg h1] at h
    refine ⟨by omega, by omega, ?_⟩
    intro b hb
    have := (List.all_eq_true.mp h) b hb
    rw [decide_eq_true_eq] at this
    simp only [IvDisjoint]
    omega

theorem genLoop_ge (aS aE : Int) (busy : List Iv) (c : Int) (ts : List GTask)
    (hfix : ∀ t ∈ ts, t.start_time = none) (hd : ∀ t ∈ ts, 0 ≤ durOf t) :
    ∀ it ∈ genLoop aS aE busy c ts, c ≤ it.start_min := by
  induction ts generalizing c with
  | nil => simp [genLoop]
  | cons t rest ih =>
    have hft : t.start_time = none := hfix t (List.mem_cons_self _ _)
    have hd0 : 0 ≤ durOf t := hd t (List.mem_cons_self _ _)
    have hfr : ∀ x ∈ rest, x.start_time = none := fun x hx => hfix x (List.mem_cons_of_mem _ hx)
    have hdr : ∀ x ∈ rest, 0 ≤ durOf x := fun x hx => hd x (List.mem_cons_of_mem _ hx)
    intro it hit
    rw [genLoop] at hit
    simp only [hft] at hit
    rcases hpl : probeLoop aS aE busy (durOf t) c with _ | p
    · rw [hpl] at hit
      exact ih c hfr hdr it hit
    · rw [hpl] at hit
      have hcp : c ≤ p := probeLoop_ge aS aE busy (durOf t) c p hpl
      rcases List.mem_cons.mp hit with rfl | hit'
      · exact hcp
      · have := ih (p + durOf t) hfr hdr it hit'
        omega

theorem genLoop_nonoverlap (aS aE : Int) (busy : List Iv) (c : Int) (ts : List GTask)
    (hfix : ∀ t ∈ ts, t.start_time = none) (hd : ∀ t ∈ ts, 0 ≤ durOf t) :
    (genLoop aS aE busy c ts).Pairwise (fun a b => IvDisjoint a.iv b.iv) := by
  induction ts generalizing c with
  | nil => simp [genLoop]
  | cons t rest ih =>
    have hft : t.start_time = none := hfix t (List.mem_cons_self _ _)
    have hfr : ∀ x ∈ rest, x.start_time = none := fun x hx => hfix x (List.mem_cons_of_mem _ hx)
    have hdr : ∀ x ∈ rest, 0 ≤ durOf x := fun x hx => hd x (List.mem_cons_of_mem _ hx)
    rw [genLoop]
    simp only [hft]
    rcases hpl : probeLoop aS aE busy (durOf t) c with _ | p
    · exact ih c hfr hdr
    · refine List.pairwise_cons.mpr ⟨?_, ih (p + durOf t) hfr hdr⟩
      intro it hit
      have := genLoop_ge aS aE busy (p + durOf t) rest hfr hdr it hit
      simp only [PlanItemOut.iv, IvDisjoint]
      omega

/-- Claim C1 counterexample: `generate_plan`'s placement loop checks a
fixed-time slot only against availability and busy intervals, never
against already-placed items, so two pending tasks fixed at the same time
are both placed on the identical interval `[600, 630)` — two plan items of
one generated plan whose intervals intersect, from a fully well-formed
input. -/
theorem genLoop_fixed_overlap :
    genLoop 540 1260 [] 540
        [{ id := 1, start_time := some 600, estimated_minutes := some 30 },
          { id := 2, start_time := some 600, estimated_minutes := some 30 }] =
      [⟨1, 600, 630⟩, ⟨2, 600, 630⟩] ∧
      ¬ IvDisjoint (600, 630) (600, 630) := by
  constructor
  · rfl
  · decide

/-- Claim C1 (amended): non-overlap of the plan items holds for
`build_plan` whenever every busy interval is well-formed (start ≤ end) and
every task duration is nonnegative, and for the cursor-based
`generate_plan` loop whenever additionally no task carries a fixed start
time.  (The unamended claim fails: see `genLoop_fixed_overlap`, and
`build_plan` can likewise overlap items when a busy interval is reversed
or a duration is negative.) -/
theorem plan_items_nonoverlap :
    (∀ (tasks : List TaskIn) (avail : Iv) (busy : List Iv),
        (∀ b ∈ busy, b.1 ≤ b.2) → (∀ t ∈ tasks, 0 ≤ t.duration_min) →
        (build_plan tasks avail busy).1.Pairwise (fun a b => IvDisjoint a.iv b.iv)) ∧
      ∀ (aS aE : Int) (busy : List Iv) (c : Int) (ts : List GTask),
        (∀ t ∈ ts, t.start_time = none) → (∀ t ∈ ts, 0 ≤ durOf t) →
        (genLoop aS aE busy c ts).Pairwise (fun a b => IvDisjoint a.iv b.iv) := by
  constructor
  · intro tasks avail busy hb hd
    have hwp : (free_windows avail.1 avail.2 busy).Pairwise IvDisjoint :=
      free_windows_pairwise avail.1 avail.2 busy hb
    have hdf : ∀ t ∈ tasks.filter (fun t => t.fixed_start.isSome), 0 ≤ t.duration_min :=
      fun t ht => hd t (List.mem_of_mem_filter ht)
    have hdn : ∀ t ∈ tasks.filter (fun t => t.fixed_start.isNone), 0 ≤ t.duration_min :=
      fun t ht => hd t (List.mem_of_mem_filter ht)
    obtain ⟨f1, f2, f3, f4, f5⟩ :=
      fixed_pass_inv (tasks.filter (fun t => t.fixed_start.isSome))
        (free_windows avail.1 avail.2 busy) hwp hdf
    obtain ⟨n1, n2, n3, n4, n5⟩ :=
      nonfixed_pass_inv (tasks.filter (fun t => t.fixed_start.isNone))
        (fixed_pass (free_windows avail.1 avail.2 busy)
          (tasks.filter (fun t => t.fixed_start.isSome))).2.2 f2 hdn
    simp only [build_plan]
    rw [List.Perm.pairwise_iff (fun hab => ivDisjoint_comm hab) (List.perm_insertionSort itemLe _)]
    refine List.pairwise_append.mpr ⟨f1, n1, ?_⟩
    intro it1 hit1 it2 hit2
    obtain ⟨w2, hw2, hin⟩ := n4 it2 hit2
    exact ivDisjoint_comm (ivDisjoint_of_within hin (f5 w2 hw2 it1 hit1))
  · intro aS aE busy c ts hfix hd
    exact genLoop_nonoverlap aS aE busy c ts hfix hd

/-- Witness for C1 at concrete inputs: the spec's first example scenario
for `build_plan` and a one-task cursor-generation. -/
theorem plan_items_nonoverlap_witness :
    (build_plan [⟨1, "", 60, none⟩, ⟨2, "", 60, none⟩] (540, 720) []).1.Pairwise
        (fun a b => IvDisjoint a.iv b.iv) ∧
      (genLoop 540 1260 [] 540 [{ id := 1, start_time := none, estimated_minutes := some 60 }]).Pairwise
        (fun a b => IvDisjoint a.iv b.iv) :=
  ⟨plan_items_nonoverlap.1 [⟨1, "", 60, none⟩, ⟨2, "", 60, none⟩] (540, 720) []
      (by simp) (by decide),
    plan_items_nonoverlap.2 540 1260 [] 540
      [{ id := 1, start_time := none, estimated_minutes := some 60 }] (by decide) (by decide)⟩

/-! ### Containment (Claim C6) -/

theorem fixed_pass_items_within (ts : List TaskIn) (ws : List Iv)
    (hd : ∀ t ∈ ts, 0 ≤ t.duration_min) :
    (∀ it ∈ (fixed_pass ws ts).1, ∃ w ∈ ws, IvWithin it.iv w) ∧
      ∀ w2 ∈ (fixed_pass ws ts).2.2, ∃ w ∈ ws, IvWithin w2 w := by
  induction ts generalizing ws with
  | nil =>
    simp only [fixed_pass]
    exact ⟨by simp, fun w2 hw2 => ⟨w2, hw2, ivWithin_refl w2⟩⟩
  | cons t rest ih =>
    have hd0 : 0 ≤ t.duration_min := hd t (List.mem_cons_self _ _)
    have hdr : ∀ x ∈ rest, 0 ≤ x.duration_min := fun x hx => hd x (List.mem_cons_of_mem _ hx)
    cases hft : t.fixed_start with
    | none =>
      simp only [fixed_pass, hft]
      exact ih ws hdr
    | some s =>
      rcases hpf : place_fixed ws s t.duration_min with ⟨r1, w1⟩
      cases r1 with
      | none =>
        have hw1 : w1 = ws := by
          have := place_fixed_none_frame ws s t.duration_min (by rw [hpf])
          rw [hpf] at this; exact this
        simp only [fixed_pass, hft, hpf, hw1]
        exact ih ws hdr
      | some iv =>
        have hsome := place_fixed_some ws s t.duration_min iv (by rw [hpf])
        have hw1w : ∀ w2 ∈ w1, ∃ w ∈ ws, IvWithin w2 w := by
          have := place_fixed_windows_within ws s t.duration_min hd0
          rw [hpf] at this; exact this
        obtain ⟨ihi, ihw⟩ := ih w1 hdr
        simp only [fixed_pass, hft, hpf]
        constructor
        · intro it hit
          rcases List.mem_cons.mp hit with rfl | hit'
          · obtain ⟨hv, w0, hw0, h1, h2, hin⟩ := hsome
            exact ⟨w0, hw0, hin⟩
          · obtain ⟨w0, hw0, h1⟩ := ihi it hit'
            obtain ⟨w3, hw3, h2⟩ := hw1w w0 hw0
            exact ⟨w3, hw3, ivWithin_trans h1 h2⟩
        · intro w2 hw2
          obtain ⟨w0, hw0, h1⟩ := ihw w2 hw2
          obtain ⟨w3, hw3, h2⟩ := hw1w w0 hw0
          exact ⟨w3, hw3, ivWithin_trans h1 h2⟩

theorem nonfixed_pass_items_within (ts : List TaskIn) (ws : List Iv)
    (hd : ∀ t ∈ ts, 0 ≤ t.duration_min) :
    (∀ it ∈ (nonfixed_pass ws ts).1, ∃ w ∈ ws, IvWithin it.iv w) ∧
      ∀ w2 ∈ (nonfixed_pass ws ts).2.2, ∃ w ∈ ws, IvWithin w2 w := by
  induction ts generalizing ws with
  | nil =>
    simp only [nonfixed_pass]
    exact ⟨by simp, fun w2 hw2 => ⟨w2, hw2, ivWithin_refl w2⟩⟩
  | cons t rest ih =>
    have hd0 : 0 ≤ t.duration_min := hd t (List.mem_cons_self _ _)
    have hdr : ∀ x ∈ rest, 0 ≤ x.duration_min := fun x hx => hd x (List.mem_cons_of_mem _ hx)
    rcases hpf : place_first_fit ws t.duration_min with ⟨r1, w1⟩
    cases r1 with
    | none =>
      have hw1 : w1 = ws := by
        have := place_first_fit_none_frame ws t.duration_min (by rw [hpf])
        rw [hpf] at this; exact this
      simp only [nonfixed_pass, hpf, hw1]
      exact ih ws hdr
    | some iv =>
      have hsome := place_first_fit_some ws t.duration_min iv (by rw [hpf])
      have hw1w : ∀ w2 ∈ w1, ∃ w ∈ ws, IvWithin w2 w := by
        have := place_first_fit_windows_within ws t.duration_min hd0
        rw [hpf] at this; exact this
      obtain ⟨ihi, ihw⟩ := ih w1 hdr
      simp only [nonfixed_pass, hpf]
      constructor
      · intro it hit
        rcases List.mem_cons.mp hit with rfl | hit'
        · obtain ⟨w0, hw0, h1, hv, hin⟩ := hsome
          exact ⟨w0, hw0, hin⟩
        · obtain ⟨w0, hw0, h1⟩ := ihi it hit'
          obtain ⟨w3, hw3, h2⟩ := hw1w w0 hw0
          exact ⟨w3, hw3, ivWithin_trans h1 h2⟩
      · intro w2 hw2
        obtain ⟨w0, hw0, h1⟩ := ihw w2 hw2
        obtain ⟨w3, hw3, h2⟩ := hw1w w0 hw0
        exact ⟨w3, hw3, ivWithin_trans h1 h2⟩

/-- Every item the cursor-based loop emits passed `is_free` for exactly
its own interval. -/
theorem genLoop_free (aS aE : Int) (busy : List Iv) (c : Int) (ts : List GTask) :
    ∀ it ∈ genLoop aS aE busy c ts, is_free aS aE busy it.start_min it.end_min = true := by
  induction ts generalizing c with
  | nil => simp [genLoop]
  | cons t rest ih =>
    intro it hit
    rw [genLoop] at hit
    cases hft : t.start_time with
    | some s =>
      simp only [hft] at hit
      by_cases hfree : is_free aS aE busy s (s + durOf t) = true
      · rw [if_pos hfree] at hit
        rcases List.mem_cons.mp hit with rfl | hit'
        · exact hfree
        · exact ih c it hit'
      · rw [if_neg hfree] at hit
        rcases hpl : probeLoop aS aE busy (durOf t) c with _ | p
        · rw [hpl] at hit
          exact ih c it hit
        · rw [hpl] at hit
          rcases List.mem_cons.mp hit with rfl | hit'
          · exact probeLoop_free aS aE busy (durOf t) c _ hpl
          · exact ih (p + durOf t) it hit'
    | none =>
      simp only [hft] at hit
      rcases hpl : probeLoop aS aE busy (durOf t) c with _ | p
      · rw [hpl] at hit
        exact ih c it hit
      · rw [hpl] at hit
        rcases List.mem_cons.mp hit with rfl | hit'
        · exact probeLoop_free aS aE busy (durOf t) c _ hpl
        · exact ih (p + durOf t) it hit'

/-- Claim C6 counterexample: `build_plan` accepts a fixed task with a
negative duration; cutting its reversed interval enlarges a free window
beyond the availability window, and a later task is then placed on
`[0, 120)`, escaping the availability window `[0, 100)`.  So containment
does not hold for every input. -/
theorem build_plan_escapes_availability :
    (build_plan [⟨1, "", -100, some 150⟩, ⟨2, "", 120, none⟩] (0, 100) []).1 =
        [⟨2, 0, 120⟩, ⟨1, 150, 50⟩] ∧
      ¬ IvWithin (PlanItemOut.iv ⟨2, 0, 120⟩) (0, 100) := by
  constructor
  · rfl
  · decide

/-- Claim C6 (amended): every generated plan item lies within the
availability window used for the generation and is disjoint from every
merged busy interval used for it — for `build_plan` under the spec's input
precondition that durations are nonnegative (the unamended universal claim
fails: see `build_plan_escapes_availability`), and for the cursor-based
`generate_plan` loop unconditionally. -/
theorem plan_items_contained :
    (∀ (tasks : List TaskIn) (avail : Iv) (busy : List Iv),
        (∀ t ∈ tasks, 0 ≤ t.duration_min) →
        ∀ it ∈ (build_plan tasks avail busy).1,
          IvWithin it.iv avail ∧ ∀ b ∈ merge_ranges busy, IvDisjoint it.iv b) ∧
      ∀ (aS aE : Int) (busy : List Iv) (c : Int) (ts : List GTask),
        ∀ it ∈ genLoop aS aE busy c ts,
          IvWithin it.iv (aS, aE) ∧ ∀ b ∈ merge_ranges busy, IvDisjoint it.iv b := by
  constructor
  · intro tasks avail busy hd it hit
    have hdf : ∀ t ∈ tasks.filter (fun t => t.fixed_start.isSome), 0 ≤ t.duration_min :=
      fun t ht => hd t (List.mem_of_mem_filter ht)
    have hdn : ∀ t ∈ tasks.filter (fun t => t.fixed_start.isNone), 0 ≤ t.duration_min :=
      fun t ht => hd t (List.mem_of_mem_filter ht)
    simp only [build_plan] at hit
    rw [List.mem_insertionSort] at hit
    have hw : ∃ w ∈ free_windows avail.1 avail.2 busy, IvWithin it.iv w := by
      rcases List.mem_append.mp hit with h1 | h1
      · exact (fixed_pass_items_within _ _ hdf).1 it h1
      · obtain ⟨w2, hw2, hin⟩ := (nonfixed_pass_items_within _ _ hdn).1 it h1
        obtain ⟨w3, hw3, h2⟩ := (fixed_pass_items_within _ _ hdf).2 w2 hw2
        exact ⟨w3, hw3, ivWithin_trans hin h2⟩
    obtain ⟨w, hwmem, hin⟩ := hw
    obtain ⟨hwa, hwb, _⟩ := free_windows_spec avail.1 avail.2 busy w hwmem
    exact ⟨ivWithin_trans hin hwa, fun b hb => ivDisjoint_of_within hin (hwb b hb)⟩
  · intro aS aE busy c ts it hit
    have hfree := genLoop_free aS aE busy c ts it hit
    obtain ⟨h1, h2, h3⟩ := is_free_spec aS aE busy it.start_min it.end_min hfree
    refine ⟨⟨h1, h2⟩, ?_⟩
    exact ivDisjoint_merge_of_all busy it.iv h3

/-- Witness for C6 at concrete inputs. -/
theorem plan_items_contained_witness :
    (IvWithin (PlanItemOut.iv ⟨1, 540, 600⟩) ((540 : Int), (720 : Int)) ∧
        ∀ b ∈ merge_ranges [], IvDisjoint (PlanItemOut.iv ⟨1, 540, 600⟩) b) ∧
      IvWithin (PlanItemOut.iv ⟨1, 540, 600⟩) ((540 : Int), (1260 : Int)) ∧
        ∀ b ∈ merge_ranges [], IvDisjoint (PlanItemOut.iv ⟨1, 540, 600⟩) b :=
  ⟨plan_items_contained.1 [⟨1, "", 60, none⟩] (540, 720) [] (by decide) ⟨1, 540, 600⟩
      (by decide),
    plan_items_contained.2 540 1260 [] 540
      [{ id := 1, start_time := none, estimated_minutes := some 60 }] ⟨1, 540, 600⟩ (by decide)⟩

/-! ### Claims C3, C4, C10 about the placers -/

theorem place_fixed_first_window (w1 : List Iv) (w : Iv) (w2 : List Iv) (s d : Int)
    (h1 : ∀ u ∈ w1, ¬(u.1 ≤ s ∧ s + d ≤ u.2)) (h2 : w.1 ≤ s ∧ s + d ≤ w.2) :
    place_fixed (w1 ++ w :: w2) s d = (some (s, s + d), w1 ++ cut_parts w s (s + d) ++ w2) := by
  induction w1 with
  | nil =>
    simp only [List.nil_append]
    rw [place_fixed, if_pos (by omega)]
  | cons u rest ih =>
    have hu : ¬(u.1 ≤ s ∧ s + d ≤ u.2) := h1 u (List.mem_cons_self _ _)
    rw [List.cons_append, place_fixed, if_neg (by omega),
      ih (fun x hx => h1 x (List.mem_cons_of_mem _ hx))]
    rfl

/-- Claim C3 counterexample: in `generate_plan`, a fixed-time task whose
requested slot `[600, 630)` conflicts with a busy interval is not deferred
to an unscheduled result: the loop falls through to the greedy probe and
places the task at `[540, 570)` — a time other than its requested start. -/
theorem genLoop_fixed_fallback :
    genLoop 540 1260 [(600, 630)] 540
        [{ id := 1, start_time := some 600, estimated_minutes := some 30 }] =
      [⟨1, 540, 570⟩] ∧ (540 : Int) ≠ 600 := by
  constructor
  · rfl
  · decide

/-- Claim C3 (amended): the fixed-time placer `place_fixed` behaves as
claimed — it returns exactly `[s, s+d)` when it places at all, it places
iff some free window fully contains `[s, s+d)`, and the placement cuts
precisely the first containing window, leaving the windows before it
untouched; `build_plan` then reports a failed fixed task as unscheduled.
But in the cursor variant `generate_plan` a fixed task whose slot is not
free falls back to greedy probe placement instead of being deferred (see
`genLoop_fixed_fallback`), so the engine as a whole can place a fixed task
at a time other than its requested start. -/
theorem fixed_placer_exact :
    (∀ (ws : List Iv) (s d : Int) (iv : Iv),
        (place_fixed ws s d).1 = some iv → iv = (s, s + d)) ∧
      (∀ (ws : List Iv) (s d : Int),
        (place_fixed ws s d).1 = none ↔ ∀ w ∈ ws, ¬(w.1 ≤ s ∧ s + d ≤ w.2)) ∧
      ∀ (w1 : List Iv) (w : Iv) (w2 : List Iv) (s d : Int),
        (∀ u ∈ w1, ¬(u.1 ≤ s ∧ s + d ≤ u.2)) → w.1 ≤ s ∧ s + d ≤ w.2 →
        place_fixed (w1 ++ w :: w2) s d = (some (s, s + d), w1 ++ cut_parts w s (s + d) ++ w2) :=
  ⟨fun ws s d iv h => (place_fixed_some ws s d iv h).1,
    place_fixed_none_iff,
    place_fixed_first_window⟩

/-- Witness for C3 at concrete inputs: placing `[20, 50)` skips the
non-containing window `(0, 5)` and cuts `(10, 100)`. -/
theorem fixed_placer_exact_witness :
    (place_fixed [((0 : Int), 5)] 20 30).1 = none ∧
      place_fixed ([((0 : Int), 5)] ++ (10, 100) :: []) 20 30 =
        (some (20, 20 + 30), [((0 : Int), 5)] ++ cut_parts (10, 100) 20 (20 + 30) ++ []) :=
  ⟨(fixed_placer_exact.2.1 [((0 : Int), 5)] 20 30).mpr (by decide),
    by exact fixed_placer_exact.2.2 [((0 : Int), 5)] (10, 100) [] 20 30 (by decide) (by omega)⟩

/-- Claim C4 counterexample: `place_first_fit` does not reject a
nonpositive duration — with `d = -20` it returns a placement `(0, -20)`
and even rewrites the window list (the window grows to `(-20, 100)`), so
"returns no placement and makes no cut" is false. -/
theorem place_first_fit_accepts_negative :
    (place_first_fit [((0 : Int), 100)] (-20)).1 = some (0, -20) ∧
      (place_first_fit [((0 : Int), 100)] (-20)).2 ≠ [((0 : Int), 100)] := by
  decide

/-- Claim C4 (amended): neither placer validates the duration; a duration
`d ≤ 0` is accepted and placed like any other.  `place_first_fit` places
`[w.1, w.1+d)` at the first window whenever that window is well-formed
(its length check `w.2 - w.1 ≥ d` always passes for `d ≤ 0`), and
`place_fixed` places `[s, s+d)` whenever its containment check passes,
which for `d ≤ 0` never requires a positive-length slot. -/
theorem placers_accept_nonpositive_dur :
    (∀ (w : Iv) (rest : List Iv) (d : Int), d ≤ 0 → w.1 ≤ w.2 →
        (place_first_fit (w :: rest) d).1 = some (w.1, w.1 + d)) ∧
      ∀ (w : Iv) (rest : List Iv) (s d : Int), d ≤ 0 → w.1 ≤ s → s + d ≤ w.2 →
        (place_fixed (w :: rest) s d).1 = some (s, s + d) := by
  constructor
  · intro w rest d hd hw
    rw [place_first_fit, if_pos (by omega)]
  · intro w rest s d hd h1 h2
    rw [place_fixed, if_pos (by omega)]

/-- Witness for C4's amended claim at concrete inputs. -/
theorem placers_accept_nonpositive_dur_witness :
    (place_first_fit [((0 : Int), 100)] 0).1 = some (0, 0 + 0) ∧
      (place_fixed [((0 : Int), 100)] 50 (-10)).1 = some (50, 50 + -10) :=
  ⟨placers_accept_nonpositive_dur.1 (0, 100) [] 0 (by omega) (by omega),
    placers_accept_nonpositive_dur.2 (0, 100) [] 50 (-10) (by omega) (by omega) (by omega)⟩

/-- Claim C10: failure of either placer is atomic with respect to the
free-window list — a `none` result comes with the window list exactly as
given. -/
theorem placer_failure_frame :
    (∀ (ws : List Iv) (s d : Int),
        (place_fixed ws s d).1 = none → (place_fixed ws s d).2 = ws) ∧
      ∀ (ws : List Iv) (d : Int),
        (place_first_fit ws d).1 = none → (place_first_fit ws d).2 = ws :=
  ⟨place_fixed_none_frame, place_first_fit_none_frame⟩

/-- Witness for C10 at concrete inputs: both placers fail on a window too
small and return the list unchanged. -/
theorem placer_failure_frame_witness :
    (place_fixed [((0 : Int), 25)] 10 30).2 = [((0 : Int), 25)] ∧
      (place_first_fit [((0 : Int), 25)] 30).2 = [((0 : Int), 25)] :=
  ⟨placer_failure_frame.1 [((0 : Int), 25)] 10 30 (by decide),
    placer_failure_frame.2 [((0 : Int), 25)] 30 (by decide)⟩

/-! ### Conservation (Claim C2) -/

theorem length_filter_split_mem (l : List TaskIn) (u : List Int) :
    (l.filter (fun t => decide (t.id ∈ u))).length +
      (l.filter (fun t => decide (t.id ∉ u))).length = l.length := by
  induction l with
  | nil => simp
  | cons a t ih =>
    by_cases h : a.id ∈ u
    · rw [List.filter_cons_of_pos (by simpa using h),
        List.filter_cons_of_neg (by simpa using h)]
      simp only [List.length_cons]
      omega
    · rw [List.filter_cons_of_neg (by simpa using h),
        List.filter_cons_of_pos (by simpa using h)]
      simp only [List.length_cons]
      omega

theorem fixed_pass_counts (ts : List TaskIn) (ws : List Iv) :
    (fixed_pass ws ts).1.length = (fixed_pass ws ts).2.1.length ∧
      ((fixed_pass ws ts).2.1).Sublist (ts.map (fun t => t.id)) := by
  induction ts generalizing ws with
  | nil => simp [fixed_pass]
  | cons t rest ih =>
    cases hft : t.fixed_start with
    | none =>
      simp only [fixed_pass, hft, List.map_cons]
      exact ⟨(ih ws).1, (ih ws).2.cons t.id⟩
    | some s =>
      rcases hpf : place_fixed ws s t.duration_min with ⟨r1, w1⟩
      cases r1 with
      | none =>
        simp only [fixed_pass, hft, hpf, List.map_cons]
        exact ⟨(ih w1).1, (ih w1).2.cons t.id⟩
      | some iv =>
        simp only [fixed_pass, hft, hpf, List.map_cons, List.length_cons]
        exact ⟨by rw [(ih w1).1], (ih w1).2.cons₂ t.id⟩

theorem nonfixed_pass_counts (ts : List TaskIn) (ws : List Iv) :
    (nonfixed_pass ws ts).1.length = (nonfixed_pass ws ts).2.1.length ∧
      ((nonfixed_pass ws ts).2.1).Sublist (ts.map (fun t => t.id)) := by
  induction ts generalizing ws with
  | nil => simp [nonfixed_pass]
  | cons t rest ih =>
    rcases hpf : place_first_fit ws t.duration_min with ⟨r1, w1⟩
    cases r1 with
    | none =>
      simp only [nonfixed_pass, hpf, List.map_cons]
      exact ⟨(ih w1).1, (ih w1).2.cons t.id⟩
    | some iv =>
      simp only [nonfixed_pass, hpf, List.map_cons, List.length_cons]
      exact ⟨by rw [(ih w1).1], (ih w1).2.cons₂ t.id⟩

/-- Counting: when the task ids are distinct and `u` is a duplicate-free
set of ids drawn from the tasks, exactly `u.length` tasks have their id in
`u`. -/
theorem count_ids (l : List TaskIn) (u : List Int)
    (hnd : (l.map (fun t => t.id)).Nodup) (hu : u.Nodup)
    (hsub : ∀ x ∈ u, x ∈ l.map (fun t => t.id)) :
    (l.filter (fun t => decide (t.id ∈ u))).length = u.length := by
  induction l generalizing u with
  | nil =>
    cases u with
    | nil => simp
    | cons x xs => exact absurd (hsub x (List.mem_cons_self _ _)) (by simp)
  | cons a l ih =>
    rw [List.map_cons] at hnd
    have hal : a.id ∉ l.map (fun t => t.id) := (List.nodup_cons.mp hnd).1
    have hnd' := (List.nodup_cons.mp hnd).2
    by_cases hmem : a.id ∈ u
    · rw [List.filter_cons_of_pos (by simpa using hmem)]
      have hne : ∀ x ∈ l, x.id ≠ a.id := by
        intro x hx he
        exact hal (he ▸ List.mem_map_of_mem (fun t => t.id) hx)
      have hcong : ∀ x ∈ l, decide (x.id ∈ u) = decide (x.id ∈ u.erase a.id) := by
        intro x hx
        have hiff : x.id ∈ u ↔ x.id ∈ u.erase a.id := by
          rw [hu.mem_erase_iff]
          exact ⟨fun h => ⟨hne x hx, h⟩, fun h => h.2⟩
        simp [hiff]
      rw [List.filter_congr hcong]
      have hlen := List.length_erase_add_one hmem
      have hrec := ih (u.erase a.id) hnd' (hu.erase _) ?_
      · simp only [List.length_cons]
        omega
      · intro x hx
        obtain ⟨hxne, hxu⟩ := hu.mem_erase_iff.mp hx
        rcases List.mem_cons.mp (hsub x hxu) with h | h
        · exact absurd h hxne
        · exact h
    · rw [List.filter_cons_of_neg (by simpa using hmem)]
      refine ih u hnd' hu ?_
      intro x hx
      rcases List.mem_cons.mp (hsub x hx) with rfl | h
      · exact absurd hx hmem
      · exact h

/-- Claim C2 counterexample: with a duplicated task id, `build_plan` loses
conservation — the first copy of id 1 is placed, the second does not fit,
but because `used` is a set of ids the second copy is not reported
unscheduled: 1 placed + 0 unscheduled ≠ 2 input tasks. -/
theorem build_plan_conservation_fails :
    (build_plan [⟨1, "", 60, none⟩, ⟨1, "", 1000, none⟩] (540, 720) []).1.length +
        (build_plan [⟨1, "", 60, none⟩, ⟨1, "", 1000, none⟩] (540, 720) []).2.length = 1 ∧
      ([⟨1, "", 60, none⟩, ⟨1, "", 1000, none⟩] : List TaskIn).length = 2 := by
  constructor
  · rfl
  · rfl

/-- Claim C2 (amended): for `build_plan`, whenever the input task ids are
pairwise distinct, every task is either placed or reported unscheduled:
placed + unscheduled = input.  (As stated the claim fails: with duplicate
ids `build_plan` undercounts — see `build_plan_conservation_fails` — and
the cursor variant `generate_plan` records no unscheduled result at all,
silently skipping tasks that do not fit.) -/
theorem build_plan_conservation (tasks : List TaskIn) (avail : Iv) (busy : List Iv)
    (hnd : (tasks.map (fun t => t.id)).Nodup) :
    (build_plan tasks avail busy).1.length + (build_plan tasks avail busy).2.length =
      tasks.length := by
  simp only [build_plan]
  obtain ⟨fc, fs⟩ :=
    fixed_pass_counts (tasks.filter (fun t => t.fixed_start.isSome))
      (free_windows avail.1 avail.2 busy)
  obtain ⟨nc, ns⟩ :=
    nonfixed_pass_counts (tasks.filter (fun t => t.fixed_start.isNone))
      (fixed_pass (free_windows avail.1 avail.2 busy)
        (tasks.filter (fun t => t.fixed_start.isSome))).2.2
  have hmapf : ((tasks.filter (fun t => t.fixed_start.isSome)).map (fun t => t.id)).Sublist
      (tasks.map (fun t => t.id)) := (List.filter_sublist tasks).map (fun t => t.id)
  have hmapn : ((tasks.filter (fun t => t.fixed_start.isNone)).map (fun t => t.id)).Sublist
      (tasks.map (fun t => t.id)) := (List.filter_sublist tasks).map (fun t => t.id)
  have hnd1 := hnd.sublist (fs.trans hmapf)
  have hnd2 := hnd.sublist (ns.trans hmapn)
  have hdisj : (fixed_pass (free_windows avail.1 avail.2 busy)
      (tasks.filter (fun t => t.fixed_start.isSome))).2.1.Disjoint
      (nonfixed_pass (fixed_pass (free_windows avail.1 avail.2 busy)
          (tasks.filter (fun t => t.fixed_start.isSome))).2.2
        (tasks.filter (fun t => t.fixed_start.isNone))).2.1 := by
    intro x hx1 hx2
    obtain ⟨t1, ht1, he1⟩ := List.mem_map.mp (fs.mem hx1)
    obtain ⟨t2, ht2, he2⟩ := List.mem_map.mp (ns.mem hx2)
    have h12 : t1 = t2 :=
      List.inj_on_of_nodup_map hnd (List.mem_of_mem_filter ht1)
        (List.mem_of_mem_filter ht2) (by rw [he1, he2])
    have hs1 : t1.fixed_start.isSome = true := by
      simpa using (List.mem_filter.mp ht1).2
    have hs2 : t2.fixed_start.isNone = true := by
      simpa using (List.mem_filter.mp ht2).2
    rw [h12] at hs1
    cases hft : t2.fixed_start <;> rw [hft] at hs1 hs2 <;> simp_all
  have hundup : ((fixed_pass (free_windows avail.1 avail.2 busy)
        (tasks.filter (fun t => t.fixed_start.isSome))).2.1 ++
      (nonfixed_pass (fixed_pass (free_windows avail.1 avail.2 busy)
          (tasks.filter (fun t => t.fixed_start.isSome))).2.2
        (tasks.filter (fun t => t.fixed_start.isNone))).2.1).Nodup :=
    List.Nodup.append hnd1 hnd2 hdisj
  have husub : ∀ x ∈ (fixed_pass (free_windows avail.1 avail.2 busy)
        (tasks.filter (fun t => t.fixed_start.isSome))).2.1 ++
      (nonfixed_pass (fixed_pass (free_windows avail.1 avail.2 busy)
          (tasks.filter (fun t => t.fixed_start.isSome))).2.2
        (tasks.filter (fun t => t.fixed_start.isNone))).2.1,
      x ∈ tasks.map (fun t => t.id) := by
    intro x hx
    rcases List.mem_append.mp hx with h | h
    · exact hmapf.mem (fs.mem h)
    · exact hmapn.mem (ns.mem h)
  have hcount := count_ids tasks _ hnd hundup husub
  rw [List.length_append] at hcount
  have hsplit := length_filter_split_mem tasks
    ((fixed_pass (free_windows avail.1 avail.2 busy)
        (tasks.filter (fun t => t.fixed_start.isSome))).2.1 ++
      (nonfixed_pass (fixed_pass (free_windows avail.1 avail.2 busy)
          (tasks.filter (fun t => t.fixed_start.isSome))).2.2
        (tasks.filter (fun t => t.fixed_start.isNone))).2.1)
  rw [List.length_insertionSort, List.length_append, List.length_map]
  omega

/-- Witness for C2 at the spec's first example scenario. -/
theorem build_plan_conservation_witness :
    (build_plan [⟨1, "", 60, none⟩, ⟨2, "", 60, none⟩] (540, 720) []).1.length +
        (build_plan [⟨1, "", 60, none⟩, ⟨2, "", 60, none⟩] (540, 720) []).2.length =
      ([⟨1, "", 60, none⟩, ⟨2, "", 60, none⟩] : List TaskIn).length :=
  build_plan_conservation [⟨1, "", 60, none⟩, ⟨2, "", 60, none⟩] (540, 720) [] (by decide)

/-! ### Store-layer lemmas -/

theorem goc_fields (st : DBState) (tg : Int) :
    (_get_or_create_user_id st tg).2.plans = st.plans ∧
      (_get_or_create_user_id st tg).2.next_plan_id = st.next_plan_id ∧
      (_get_or_create_user_id st tg).2.plan_items = st.plan_items ∧
      (_get_or_create_user_id st tg).2.tasks = st.tasks ∧
      (_get_or_create_user_id st tg).2.avails = st.avails ∧
      (_get_or_create_user_id st tg).2.busys = st.busys := by
  unfold _get_or_create_user_id
  cases lookupUser st tg <;> simp

theorem goc_of_found (st : DBState) (tg uid : Int) (hu : lookupUser st tg = some uid) :
    _get_or_create_user_id st tg = (uid, st) := by
  unfold _get_or_create_user_id
  rw [hu]

theorem current_plan_congr (st t : DBState) (uid d : Int) (h : st.plans = t.plans) :
    _current_plan st uid d = _current_plan t uid d := by
  unfold _current_plan
  rw [h]

/-- Claim C5: against a locked current plan, `generate_plan` fails with
`PLAN_LOCKED` and returns the stored state unchanged — no plan row, no
plan item, no row of any table is created, changed or deleted.  (The
hypothesis that a locked plan exists entails that the user row exists, so
the get-or-create lookup is also a pure read.) -/
theorem generate_plan_locked_frame (st : DBState) (tg d uid : Int) (p : PlanRow)
    (hu : lookupUser st tg = some uid)
    (hp : _current_plan st uid d = some p) (hl : p.is_locked = true) :
    generate_plan st tg d = (Except.error "PLAN_LOCKED", st) := by
  unfold generate_plan
  rw [goc_of_found st tg uid hu]
  simp only [hp, hl, Option.map_some', Option.getD_some, if_true]

/-- A state whose only plan (version 1, for user 1 at date 0) is locked. -/
def lockedState : DBState :=
  { users := [(7, 1)], next_user_id := 2,
    plans := [{ id := 1, user_id := 1, date := 0, version := 1, is_locked := true }],
    next_plan_id := 2 }

/-- Witness for C5: generating against `lockedState` fails and leaves the
state exactly as it was. -/
theorem generate_plan_locked_frame_witness :
    generate_plan lockedState 7 0 = (Except.error "PLAN_LOCKED", lockedState) :=
  generate_plan_locked_frame lockedState 7 0 1
    { id := 1, user_id := 1, date := 0, version := 1, is_locked := true }
    (by decide) (by decide) (by decide)

/-- Claim C7 counterexample: `get_plan_items` is not a pure read — for a
Telegram id with no `users` row it calls `_get_or_create_user_id`, which
inserts a new row, so the call mutates stored state. -/
theorem get_plan_items_creates_user :
    (get_plan_items ({} : DBState) 5 0).2 ≠ ({} : DBState) := by
  decide

/-- Claim C7 (amended): for a known user, `get_plan_items` is a pure read:
it leaves the state unchanged and returns the latest version's id, version
number, lock flag and items (ordered by start time); when no plan exists
it returns the empty answer.  For an unknown Telegram id, however, the
call inserts a `users` row (see `get_plan_items_creates_user`), so the
frame property only holds once the user exists. -/
theorem get_plan_items_pure (st : DBState) (tg d uid : Int)
    (hu : lookupUser st tg = some uid) :
    (get_plan_items st tg d).2 = st ∧
      (_current_plan st uid d = none → (get_plan_items st tg d).1 = (none, none, false, [])) ∧
      ∀ p, _current_plan st uid d = some p →
        (get_plan_items st tg d).1 =
          (some p.id, some p.version, p.is_locked,
            List.insertionSort rowStartLe
              (st.plan_items.filter (fun it => decide (it.plan_id = p.id)))) := by
  have hzeta : get_plan_items st tg d =
      (match _current_plan st uid d with
        | none => ((none, none, false, []), st)
        | some p =>
          ((some p.id, some p.version, p.is_locked,
              List.insertionSort rowStartLe
                (st.plan_items.filter (fun it => decide (it.plan_id = p.id)))), st)) := by
    unfold get_plan_items
    rw [goc_of_found st tg uid hu]
  refine ⟨?_, ?_, ?_⟩
  · rw [hzeta]
    cases _current_plan st uid d <;> rfl
  · intro hpeq
    rw [hzeta, hpeq]
  · intro q hq
    rw [hzeta, hq]

/-- A state with one unlocked plan carrying one item. -/
def shownState : DBState :=
  { users := [(7, 1)], next_user_id := 2,
    plans := [{ id := 1, user_id := 1, date := 0, version := 1, is_locked := false }],
    next_plan_id := 2,
    plan_items := [{ plan_id := 1, task_id := 3, start_min := 540, end_min := 600 }] }

/-- Witness for C7's amended claim at `shownState`. -/
theorem get_plan_items_pure_witness :
    (get_plan_items shownState 7 0).2 = shownState ∧
      (get_plan_items shownState 7 0).1 =
        (some 1, some 1, false,
          List.insertionSort rowStartLe
            (shownState.plan_items.filter (fun it => decide (it.plan_id = 1)))) :=
  ⟨(get_plan_items_pure shownState 7 0 1 (by decide)).1,
    (get_plan_items_pure shownState 7 0 1 (by decide)).2.2
      { id := 1, user_id := 1, date := 0, version := 1, is_locked := false } (by decide)⟩

/-! ### Version monotonicity (Claim C8) -/

theorem goc_plans (st : DBState) (tg : Int) :
    (_get_or_create_user_id st tg).2.plans = st.plans := by
  unfold _get_or_create_user_id
  cases lookupUser st tg <;> rfl

theorem goc_next_plan_id (st : DBState) (tg : Int) :
    (_get_or_create_user_id st tg).2.next_plan_id = st.next_plan_id := by
  unfold _get_or_create_user_id
  cases lookupUser st tg <;> rfl

theorem current_plan_none_iff (st : DBState) (uid d : Int) :
    _current_plan st uid d = none ↔
      st.plans.filter (fun p => decide (p.user_id = uid ∧ p.date = d)) = [] := by
  unfold _current_plan
  rw [List.head?_eq_none_iff]
  constructor
  · intro h
    have hperm := List.perm_insertionSort verGe
      (st.plans.filter (fun p => decide (p.user_id = uid ∧ p.date = d)))
    rw [h] at hperm
    exact (List.perm_nil.mp hperm.symm).symm ▸ rfl
  · intro h
    rw [h]
    rfl

theorem current_plan_version_max (st : DBState) (uid d : Int) (p : PlanRow)
    (hp : _current_plan st uid d = some p) :
    ∀ q ∈ st.plans.filter (fun r => decide (r.user_id = uid ∧ r.date = d)),
      q.version ≤ p.version := by
  intro q hq
  unfold _current_plan at hp
  have hsorted := List.sorted_insertionSort verGe
    (st.plans.filter (fun r => decide (r.user_id = uid ∧ r.date = d)))
  have hqmem : q ∈ List.insertionSort verGe
      (st.plans.filter (fun r => decide (r.user_id = uid ∧ r.date = d))) :=
    (List.mem_insertionSort verGe).mpr hq
  cases hs : List.insertionSort verGe
      (st.plans.filter (fun r => decide (r.user_id = uid ∧ r.date = d))) with
  | nil =>
    rw [hs] at hp
    cases hp
  | cons h t =>
    rw [hs] at hp hqmem hsorted
    injection hp with hp
    subst hp
    rcases List.mem_cons.mp hqmem with rfl | hqt
    · exact le_refl _
    · exact List.rel_of_pairwise_cons hsorted hqt

theorem head_sorted_append (l : List PlanRow) (p : PlanRow)
    (hmax : ∀ q ∈ l, q.version < p.version) :
    (List.insertionSort verGe (l ++ [p])).head? = some p := by
  have hsorted := List.sorted_insertionSort verGe (l ++ [p])
  have hpmem : p ∈ List.insertionSort verGe (l ++ [p]) :=
    (List.mem_insertionSort verGe).mpr (by simp)
  cases hs : List.insertionSort verGe (l ++ [p]) with
  | nil =>
    rw [hs] at hpmem
    cases hpmem
  | cons h t =>
    rw [hs] at hpmem hsorted
    have hhm : h ∈ l ++ [p] :=
      (List.mem_insertionSort verGe).mp (hs ▸ List.mem_cons_self h t)
    rcases List.mem_append.mp hhm with hl | hp2
    · exfalso
      rcases List.mem_cons.mp hpmem with rfl | hpt
      · exact absurd (hmax _ hl) (by omega)
      · have h1 : p.version ≤ h.version := List.rel_of_pairwise_cons hsorted hpt
        have h2 := hmax h hl
        omega
    · simp only [List.mem_singleton] at hp2
      rw [hp2]
      rfl

theorem latestVersion_append (st st2 : DBState) (uid d : Int) (newp : PlanRow)
    (h : st2.plans = st.plans ++ [newp]) (hu : newp.user_id = uid) (hd : newp.date = d)
    (hmax : ∀ q ∈ st.plans.filter (fun r => decide (r.user_id = uid ∧ r.date = d)),
      q.version < newp.version) :
    _current_plan st2 uid d = some newp := by
  unfold _current_plan
  rw [h, List.filter_append]
  have hone : List.filter (fun p => decide (p.user_id = uid ∧ p.date = d)) [newp] = [newp] := by
    simp [hu, hd]
  rw [hone]
  refine head_sorted_append _ newp ?_
  exact hmax

/-- The not-locked run of `generate_plan`: it answers with the fresh plan
id and appends exactly one plan row, carrying the next version. -/
theorem generate_plan_ok_shape (st : DBState) (tg d : Int)
    (hnl : ∀ c, _current_plan st (_get_or_create_user_id st tg).1 d = some c →
      c.is_locked = false) :
    (generate_plan st tg d).1 = Except.ok st.next_plan_id ∧
      (generate_plan st tg d).2.plans = st.plans ++
        [({ id := st.next_plan_id, user_id := (_get_or_create_user_id st tg).1, date := d,
            version := latestVersion st (_get_or_create_user_id st tg).1 d + 1,
            is_locked := false } : PlanRow)] := by
  have hcur : _current_plan (_get_or_create_user_id st tg).2 (_get_or_create_user_id st tg).1 d
      = _current_plan st (_get_or_create_user_id st tg).1 d :=
    current_plan_congr _ _ _ _ (goc_plans st tg)
  unfold generate_plan
  simp only [hcur]
  cases hc : _current_plan st (_get_or_create_user_id st tg).1 d with
  | none =>
    simp only [hc, Option.map_none', Option.getD_none, Bool.false_eq_true, if_false,
      latestVersion, Option.map_none, Option.getD]
    constructor
    · simp [goc_next_plan_id]
    · simp [goc_plans, goc_next_plan_id]
  | some c =>
    have hcl : c.is_locked = false := hnl c hc
    simp only [hc, Option.map_some', Option.getD_some, hcl, Bool.false_eq_true, if_false,
      latestVersion, Option.map_some, Option.getD]
    constructor
    · simp [goc_next_plan_id]
    · simp [goc_plans, goc_next_plan_id]

theorem generate_plan_locked_err (st : DBState) (tg d : Int) (c : PlanRow)
    (hc : _current_plan st (_get_or_create_user_id st tg).1 d = some c)
    (hl : c.is_locked = true) :
    (generate_plan st tg d).1 = Except.error "PLAN_LOCKED" := by
  have hcur : _current_plan (_get_or_create_user_id st tg).2 (_get_or_create_user_id st tg).1 d
      = _current_plan st (_get_or_create_user_id st tg).1 d :=
    current_plan_congr _ _ _ _ (goc_plans st tg)
  unfold generate_plan
  simp only [hcur, hc, hl, Option.map_some', Option.getD_some, if_true]

/-- Claim C8: a successful generation bumps the latest version for the
resolved user and date by exactly one, so successive successful
generations yield versions 1, 2, 3, ... — the first (from no plan, latest
0) creates version 1. -/
theorem generate_plan_version_monotone (st : DBState) (tg d pid : Int) (st2 : DBState)
    (h : generate_plan st tg d = (Except.ok pid, st2)) :
    latestVersion st2 (_get_or_create_user_id st tg).1 d =
      latestVersion st (_get_or_create_user_id st tg).1 d + 1 ∧
      (_current_plan st (_get_or_create_user_id st tg).1 d = none →
        latestVersion st2 (_get_or_create_user_id st tg).1 d = 1) := by
  have hnl : ∀ c, _current_plan st (_get_or_create_user_id st tg).1 d = some c →
      c.is_locked = false := by
    intro c hc
    by_cases hcl : c.is_locked = true
    · have := generate_plan_locked_err st tg d c hc hcl
      rw [h] at this
      cases this
    · simpa using hcl
  obtain ⟨h1, h2⟩ := generate_plan_ok_shape st tg d hnl
  rw [h] at h2
  have hmax : ∀ q ∈ st.plans.filter
      (fun r => decide (r.user_id = (_get_or_create_user_id st tg).1 ∧ r.date = d)),
      q.version < latestVersion st (_get_or_create_user_id st tg).1 d + 1 := by
    intro q hq
    cases hc : _current_plan st (_get_or_create_user_id st tg).1 d with
    | none =>
      rw [(current_plan_none_iff st _ d).mp hc] at hq
      cases hq
    | some c =>
      have := current_plan_version_max st _ d c hc q hq
      simp only [latestVersion, hc, Option.map_some', Option.getD_some]
      omega
  have hcur2 := latestVersion_append st st2 (_get_or_create_user_id st tg).1 d _ h2 rfl rfl hmax
  constructor
  · simp [latestVersion, hcur2]
  · intro hnone
    simp [latestVersion, hcur2, hnone]

/-- A state with a user and no plans: the first generation must create
version 1. -/
def freshState : DBState := { users := [(7, 1)], next_user_id := 2 }

/-- Witness for C8: generating on `freshState` (no prior plan, latest
version 0) yields latest version 1. -/
theorem generate_plan_version_monotone_witness :
    latestVersion (generate_plan freshState 7 0).2 (_get_or_create_user_id freshState 7).1 0 =
      latestVersion freshState (_get_or_create_user_id freshState 7).1 0 + 1 :=
  (generate_plan_version_monotone freshState 7 0 1 (generate_plan freshState 7 0).2 rfl).1

end ScheduleBot
